import Mathlib

/-!
Verification of the LDAP audit log analysis program (`audit_log_analysis.py`).

The development shallowly embeds the program's core: the preprocessor
(`read_and_modify_log_file`), the record-reconstruction parser
(`parse_log_file`), and the aggregation reducers
(`calculate_average_execution_time`, `get_events_with_highest_execution_times`,
`extract_filter_attributes`, `calculate_execution_time_distribution`).

Python specifics that matter and how they are modelled:
* text is a list of characters; `str.split`, `str.strip`, `str.replace` are
  re-implemented over `List Char` with Python's exact semantics;
* CPython raises exceptions (`KeyError`, `ValueError`, `TypeError`,
  `IndexError`, `ZeroDivisionError`) on malformed data; fallible functions
  here return `Except PErr`;
* the execution-time computation goes through IEEE-754 binary64 floats
  (`timedelta.total_seconds()` divides an exact integer microsecond count by
  10^6, the result is multiplied by the exact float 1000.0, and `int(abs(…))`
  truncates).  Floats are modelled exactly: a binade-normalised
  round-to-nearest-even is implemented over integers (`flRat`, `flMulK`);
  overflow and subnormals are irrelevant in the value ranges reachable here.
-/

/-! ## Characters and basic text utilities -/

/-- The whitespace set of Python's `str.strip()` (ASCII part; the audit logs
contain only ASCII). -/
def pyWhitespace (c : Char) : Bool :=
  c = ' ' ∨ c = '\t' ∨ c = '\n' ∨ c = '\x0d' ∨ c = '\x0b' ∨ c = '\x0c'

/-- Python `str.strip()`: remove leading and trailing whitespace. -/
def pystrip (cs : List Char) : List Char :=
  ((cs.dropWhile pyWhitespace).reverse.dropWhile pyWhitespace).reverse

/-- Python `str.split("\n")`: split on every newline, keeping empty pieces;
the empty string yields `[[]]`. -/
def splitLines : List Char → List (List Char)
  | [] => [[]]
  | '\n' :: rest => [] :: splitLines rest
  | c :: rest =>
    match splitLines rest with
    | [] => [[c]]
    | h :: t => (c :: h) :: t

/-- Python `line.split(": ", 1)` when it yields two parts: split at the first
occurrence of the two-character separator `": "`; `none` when the separator
does not occur. -/
def splitFirst : List Char → Option (List Char × List Char)
  | ':' :: ' ' :: rest => some ([], rest)
  | c :: rest => (splitFirst rest).map (fun p => (c :: p.1, p.2))
  | [] => none

/-- Python `str.replace("--", "\n")`: scan left to right, replacing each
non-overlapping occurrence of `--` by a newline. -/
def replaceDashDash : List Char → List Char
  | [] => []
  | [c] => [c]
  | c1 :: c2 :: rest =>
    if c1 = '-' ∧ c2 = '-' then '\n' :: replaceDashDash rest
    else c1 :: replaceDashDash (c2 :: rest)

/-- Whether the two-character delimiter `--` occurs anywhere in the text. -/
def hasDashDash : List Char → Bool
  | [] => false
  | [_] => false
  | c1 :: c2 :: rest => (c1 = '-' ∧ c2 = '-') ∨ hasDashDash (c2 :: rest)

/-- The preprocessor `read_and_modify_log_file`, restricted to its content
transformation (the file I/O around it is external): replace every `--` by a
line break. -/
def read_and_modify (s : String) : String :=
  String.mk (replaceDashDash s.data)

/-! ## Exact binary64 floating-point model

CPython computes `ExecutionTime` as `int(abs(total_seconds() * 1000))` where
`total_seconds()` is the correctly rounded double of an exact integer ratio.
A double value is represented here as a pair `(m, e) : ℤ × ℤ` denoting
`m * 2^e`; `m` is obtained by round-to-nearest-even at 53 significant bits.
All computations below are pure integer arithmetic. -/

/-- Fueled ⌊log₂⌋ on naturals: `nlog2 fuel n` equals ⌊log₂ n⌋ for `n ≥ 1`
whenever `n ≤ fuel`. -/
def nlog2 : Nat → Nat → Nat
  | 0, _ => 0
  | f + 1, n => if n ≤ 1 then 0 else nlog2 f (n / 2) + 1

/-- ⌊log₂ n⌋ for `n ≥ 1` (and 0 at 0). -/
def log2N (n : Nat) : Nat := nlog2 n n

/-- Fueled search for the least `k` with `a * 2^k ≥ b` (used for the binade of
a rational below 1). -/
def pow2Until : Nat → Nat → Nat → Nat
  | 0, _, _ => 0
  | f + 1, a, b => if b ≤ a then 0 else pow2Until f (2 * a) b + 1

/-- The binade exponent of the positive rational `n / b`: the unique `e` with
`2^e ≤ n/b < 2^(e+1)` (for `n, b ≥ 1`). -/
def eRat (n b : Nat) : Int :=
  if b ≤ n then (log2N (n / b) : Int) else -(pow2Until b n b : Int)

/-- Round-to-nearest-even of the ratio `N / B` of naturals (`B > 0`). -/
def roundHEDiv (N B : Nat) : Nat :=
  let q := N / B
  let r := N % B
  if 2 * r < B then q
  else if B < 2 * r then q + 1
  else if q % 2 = 0 then q else q + 1

/-- The correctly rounded binary64 value of `a / b` (`b > 0`), as a pair
`(m, e)` denoting `m * 2^e`.  This is the exact semantics of CPython's
true division of two integers. -/
def flRat (a : Int) (b : Nat) : Int × Int :=
  if a = 0 then (0, 0)
  else
    let n := a.natAbs
    let e := eRat n b
    let s : Int := if a < 0 then -1 else 1
    let m :=
      if 52 ≤ e then roundHEDiv n (b * 2 ^ (e - 52).toNat)
      else roundHEDiv (n * 2 ^ (52 - e).toNat) b
    (s * m, e - 52)

/-- The correctly rounded binary64 product of the double `(m, e)` with the
exactly representable natural `k` (CPython converts the `int` operand of
`float * int` to a double first; `1000` is exact). -/
def flMulK (k : Nat) (p : Int × Int) : Int × Int :=
  let n := p.1.natAbs * k
  if n = 0 then (0, 0)
  else
    let s : Int := if p.1 < 0 then -1 else 1
    let L := log2N n
    if L ≤ 52 then (s * (n * 2 ^ (52 - L)), p.2 + (L : Int) - 52)
    else (s * roundHEDiv n (2 ^ (L - 52)), p.2 + (L : Int) - 52)

/-- Truncation toward zero of the absolute value of the double `(m, e)`:
Python's `int(abs(x))`. -/
def truncAbsF (p : Int × Int) : Nat :=
  if 0 ≤ p.2 then p.1.natAbs * 2 ^ p.2.toNat
  else p.1.natAbs / 2 ^ (-p.2).toNat

/-- Truncation toward zero of the double `(m, e)`: Python's `int(x)`. -/
def pyIntF (p : Int × Int) : Int :=
  if p.1 < 0 then -(truncAbsF p : Int) else (truncAbsF p : Int)

/-- Python `int(a / b)` for integers `a`, `b > 0`: true division produces the
correctly rounded double of `a / b`, then `int` truncates toward zero. -/
def pyIntDivFloat (a : Int) (b : Nat) : Int := pyIntF (flRat a b)

/-- `ExecutionTime` as computed by the program from an exact signed
microsecond difference `μ`: `int(abs((μ / 10^6 as float) * 1000))`. -/
def execMsOf (μ : Int) : Nat := truncAbsF (flMulK 1000 (flRat μ 1000000))

/-! ## Timestamp parsing (`datetime.strptime`, format `%Y-%m-%d-%H:%M:%S.%f%z`)

The model accepts exactly the strings CPython 3.11 accepts for this format
(4-digit year; 1–2 digit month/day/hour/minute/second with the directive's
regex ranges and the constructor's range checks; 1–6 digit fractional part,
right-padded; `%z` either `Z` or sign, two-digit hours, minutes 00–59 with
consistent use of colons, optional seconds and fraction, total offset strictly
below 24 hours) and maps a timestamp to its exact count of microseconds since
the proleptic-Gregorian epoch, minus the UTC offset. -/

def digitVal (c : Char) : Nat := c.toNat - 48

/-- Parse one or two digits for a strptime numeric directive: the two-digit
read is preferred when its value passes `ok2`, else a single digit passing
`ok1` is taken (the format's literal separators are never digits, so this
matches the regex's backtracking). -/
def twoOrOne (ok2 : Nat → Bool) (ok1 : Nat → Bool) :
    List Char → Option (Nat × List Char)
  | a :: b :: rest =>
    if a.isDigit ∧ b.isDigit ∧ ok2 (10 * digitVal a + digitVal b) then
      some (10 * digitVal a + digitVal b, rest)
    else if a.isDigit ∧ ok1 (digitVal a) then some (digitVal a, b :: rest)
    else none
  | [a] => if a.isDigit ∧ ok1 (digitVal a) then some (digitVal a, []) else none
  | [] => none

def expectChar (c : Char) : List Char → Option (List Char)
  | x :: rest => if x = c then some rest else none
  | [] => none

def isLeapYear (y : Nat) : Bool := y % 4 = 0 ∧ (y % 100 ≠ 0 ∨ y % 400 = 0)

def daysInMonth (y m : Nat) : Nat :=
  if m = 2 then (if isLeapYear y then 29 else 28)
  else if m = 4 ∨ m = 6 ∨ m = 9 ∨ m = 11 then 30 else 31

def daysBeforeMonth (y m : Nat) : Nat :=
  (List.range (m - 1)).foldl (fun acc i => acc + daysInMonth y (i + 1)) 0

/-- `datetime.date(y, m, d).toordinal()`: day number in the proleptic
Gregorian calendar, day 1 = 0001-01-01. -/
def toOrdinal (y m d : Nat) : Nat :=
  365 * (y - 1) + (y - 1) / 4 - (y - 1) / 100 + (y - 1) / 400 +
    daysBeforeMonth y m + d

/-- Parse the `%z` directive (CPython 3.11 regex
`[+-]\d\d:?[0-5]\d(:?[0-5]\d(\.\d{1,6})?)?|Z` plus the colon-consistency
check and the `timezone` bound `|offset| < 24h`), returning the UTC offset in
microseconds.  The whole remaining input must be consumed. -/
def parseZoneTail (sgn : Int) (H : Nat) : Bool → List Char → Option Int
  | colons, rest =>
    match rest with
    | m1 :: m2 :: rest2 =>
      if m1.isDigit ∧ m2.isDigit ∧ digitVal m1 ≤ 5 then
        let M := 10 * digitVal m1 + digitVal m2
        let base := ((H * 3600 + M * 60 : Nat) : Int) * 1000000
        match rest2 with
        | [] =>
          if base < 86400000000 then some (sgn * base) else none
        | ':' :: s1 :: s2 :: rest3 =>
          if colons ∧ s1.isDigit ∧ s2.isDigit ∧ digitVal s1 ≤ 5 then
            let S := 10 * digitVal s1 + digitVal s2
            let tot := base + (S : Int) * 1000000
            match rest3 with
            | [] => if tot < 86400000000 then some (sgn * tot) else none
            | '.' :: ds =>
              if ds ≠ [] ∧ ds.length ≤ 6 ∧ ds.all Char.isDigit then
                let f := ds.foldl (fun acc c => 10 * acc + digitVal c) 0
                let tot2 := tot + (f * 10 ^ (6 - ds.length) : Nat)
                if tot2 < 86400000000 then some (sgn * tot2) else none
              else none
            | _ => none
          else none
        | s1 :: s2 :: rest3 =>
          if (¬ colons) ∧ s1.isDigit ∧ s2.isDigit ∧ digitVal s1 ≤ 5 then
            let S := 10 * digitVal s1 + digitVal s2
            let tot := base + (S : Int) * 1000000
            match rest3 with
            | [] => if tot < 86400000000 then some (sgn * tot) else none
            | '.' :: ds =>
              if ds ≠ [] ∧ ds.length ≤ 6 ∧ ds.all Char.isDigit then
                let f := ds.foldl (fun acc c => 10 * acc + digitVal c) 0
                let tot2 := tot + (f * 10 ^ (6 - ds.length) : Nat)
                if tot2 < 86400000000 then some (sgn * tot2) else none
              else none
            | _ => none
          else none
        | _ => none
      else none
    | _ => none

def parseZone : List Char → Option Int
  | ['Z'] => some 0
  | c :: h1 :: h2 :: rest =>
    if (c = '+' ∨ c = '-') ∧ h1.isDigit ∧ h2.isDigit then
      let sgn : Int := if c = '-' then -1 else 1
      let H := 10 * digitVal h1 + digitVal h2
      match rest with
      | ':' :: rest2 => parseZoneTail sgn H true rest2
      | rest2 => parseZoneTail sgn H false rest2
    else none
  | _ => none

/-- Parse `YYYY-MM-DD-hh:mm:ss.ffffff±zz:zz` exactly as
`datetime.strptime(s, "%Y-%m-%d-%H:%M:%S.%f%z")` does, returning the exact
UTC microsecond count (proleptic-Gregorian ordinal day × 86400·10⁶ + time of
day in microseconds − UTC offset). -/
def parseTimestamp (cs : List Char) : Option Int :=
  match cs with
  | y1 :: y2 :: y3 :: y4 :: cs1 =>
    if y1.isDigit ∧ y2.isDigit ∧ y3.isDigit ∧ y4.isDigit then
      let y := 1000 * digitVal y1 + 100 * digitVal y2 + 10 * digitVal y3 +
        digitVal y4
      match expectChar '-' cs1 with
      | none => none
      | some cs2 =>
        match twoOrOne (fun v => 1 ≤ v ∧ v ≤ 12) (fun v => 1 ≤ v) cs2 with
        | none => none
        | some (mo, cs3) =>
          match expectChar '-' cs3 with
          | none => none
          | some cs4 =>
            match twoOrOne (fun v => 1 ≤ v ∧ v ≤ 31) (fun v => 1 ≤ v) cs4 with
            | none => none
            | some (d, cs5) =>
              match expectChar '-' cs5 with
              | none => none
              | some cs6 =>
                match twoOrOne (fun v => v ≤ 23) (fun _ => true) cs6 with
                | none => none
                | some (h, cs7) =>
                  match expectChar ':' cs7 with
                  | none => none
                  | some cs8 =>
                    match twoOrOne (fun v => v ≤ 59) (fun _ => true) cs8 with
                    | none => none
                    | some (mi, cs9) =>
                      match expectChar ':' cs9 with
                      | none => none
                      | some cs10 =>
                        match twoOrOne (fun v => v ≤ 61) (fun _ => true)
                            cs10 with
                        | none => none
                        | some (s, cs11) =>
                          match expectChar '.' cs11 with
                          | none => none
                          | some cs12 =>
                            let ds := cs12.takeWhile Char.isDigit
                            let cs13 := cs12.dropWhile Char.isDigit
                            if 1 ≤ ds.length ∧ ds.length ≤ 6 then
                              let f := (ds.foldl
                                (fun acc c => 10 * acc + digitVal c) 0) *
                                10 ^ (6 - ds.length)
                              match parseZone cs13 with
                              | none => none
                              | some off =>
                                if 1 ≤ y ∧ d ≤ daysInMonth y mo ∧ s ≤ 59 then
                                  some ((toOrdinal y mo d : Int) * 86400000000
                                    + ((h * 3600 + mi * 60 + s : Nat) : Int) *
                                      1000000 + (f : Int) - off)
                                else none
                            else none
    else none
  | _ => none

/-! ## Events and the record-reconstruction parser (`parse_log_file`)

A record under construction is a Python dict, modelled as an insertion-ordered
association list from attribute name to value.  A value is a string, a list
(accumulated when a key recurs; Python appends whatever was stored, so list
elements are values), or an integer (the derived `ExecutionTime`). -/

inductive Value where
  | str (s : String)
  | vlist (l : List Value)
  | vint (n : Int)

mutual

def valueDecEq : (a b : Value) → Decidable (a = b)
  | Value.str a, Value.str b =>
    match decEq a b with
    | isTrue h => isTrue (by rw [h])
    | isFalse h => isFalse (by simp [h])
  | Value.str _, Value.vlist _ => isFalse (by simp)
  | Value.str _, Value.vint _ => isFalse (by simp)
  | Value.vlist _, Value.str _ => isFalse (by simp)
  | Value.vlist a, Value.vlist b =>
    match valueListDecEq a b with
    | isTrue h => isTrue (by rw [h])
    | isFalse h => isFalse (by simp [h])
  | Value.vlist _, Value.vint _ => isFalse (by simp)
  | Value.vint _, Value.str _ => isFalse (by simp)
  | Value.vint _, Value.vlist _ => isFalse (by simp)
  | Value.vint a, Value.vint b =>
    match decEq a b with
    | isTrue h => isTrue (by rw [h])
    | isFalse h => isFalse (by simp [h])

def valueListDecEq : (a b : List Value) → Decidable (a = b)
  | [], [] => isTrue rfl
  | [], _ :: _ => isFalse (by simp)
  | _ :: _, [] => isFalse (by simp)
  | x :: xs, y :: ys =>
    match valueDecEq x y, valueListDecEq xs ys with
    | isTrue h1, isTrue h2 => isTrue (by rw [h1, h2])
    | isFalse h1, _ => isFalse (by simp [h1])
    | _, isFalse h2 => isFalse (by simp [h2])

end

instance : DecidableEq Value := valueDecEq

deriving instance DecidableEq for Except

/-- A record / event: a Python dict in insertion order with unique keys. -/
def Rec : Type := List (String × Value)

instance : DecidableEq Rec := by
  unfold Rec
  infer_instance

/-- First-match lookup, Python `dict[k]` (dict keys are unique so the first
match is the entry). -/
def lookupV : Rec → String → Option Value
  | [], _ => none
  | (k', v') :: rest, k => if k' = k then some v' else lookupV rest k

/-- Python `dict[k] = v`: replace in place when the key exists, else append. -/
def setKey : Rec → String → Value → Rec
  | [], k, v => [(k, v)]
  | (k', v') :: rest, k, v =>
    if k' = k then (k', v) :: rest else (k', v') :: setKey rest k v

/-- The multi-value accumulation of lines 75–83: an existing list gets the new
string appended; any other existing value is paired with it into a new
two-element list. -/
def pushValue (old : Value) (v : String) : Value :=
  match old with
  | Value.vlist l => Value.vlist (l ++ [Value.str v])
  | x => Value.vlist [x, Value.str v]

/-- Record an attribute `key: value` (lines 73–83): accumulate on an existing
key, else append a new single-string entry. -/
def insertAttr : Rec → String → String → Rec
  | [], k, v => [(k, Value.str v)]
  | (k', v') :: rest, k, v =>
    if k' = k then (k', pushValue v' v) :: rest
    else (k', v') :: insertAttr rest k v

/-- Process one non-marker line (lines 70–84): split at the first `": "`;
lines without the separator are silently ignored. -/
def addAttrLine (cur : Rec) (l : List Char) : Rec :=
  match splitFirst l with
  | none => cur
  | some (kcs, vcs) => insertAttr cur (String.mk kcs) (String.mk vcs)

def markerChars : List Char := ("AuditV3").data

def tsKey : String := ("timestamp")

def opKey : String := ("operation_type")

def recvKey : String := ("received")

def exeKey : String := ("ExecutionTime")

/-- The fresh record opened at a marker line (lines 66–68): the two lines
after the marker are consumed unconditionally as timestamp and operation
type. -/
def startRec (t o : List Char) : Rec :=
  [(tsKey, Value.str (String.mk t)), (opKey, Value.str (String.mk o))]

/-- The Python exceptions the core can raise, as error values. -/
inductive PErr where
  | keyError (k : String)
  | valueError
  | typeError
  | indexError
  | zeroDivisionError
deriving DecidableEq

/-- Finalization of a record (lines 86–92): `strptime` both `timestamp` and
`received` (`KeyError` when absent, `TypeError` when the stored value is not
a string, `ValueError` when unparsable), then store the derived
`ExecutionTime`. -/
def finalizeRec (r : Rec) : Except PErr Rec :=
  match lookupV r tsKey with
  | none => Except.error (PErr.keyError tsKey)
  | some (Value.str s) =>
    match parseTimestamp s.data with
    | none => Except.error PErr.valueError
    | some tμ =>
      match lookupV r recvKey with
      | none => Except.error (PErr.keyError recvKey)
      | some (Value.str s2) =>
        match parseTimestamp s2.data with
        | none => Except.error PErr.valueError
        | some rμ =>
          Except.ok (setKey r exeKey (Value.vint (execMsOf (rμ - tμ))))
      | some _ => Except.error PErr.typeError
  | some _ => Except.error PErr.typeError

/-- Whether the scanner must finalize after a step (line 86):
`i == len(lines) or lines[i] == "AuditV3"`. -/
def needFin : List (List Char) → Bool
  | [] => true
  | x :: _ => decide (x = markerChars)

/-- The scanning loop of `parse_log_file` (lines 62–93) over the remaining
lines, the record under construction and the finished events.  A marker line
consumes the next two lines unconditionally (`IndexError` when fewer than two
remain); after every step, reaching the end of input or seeing a marker next
finalizes the current record. -/
def parseLoop : List (List Char) → Rec → List Rec → Except PErr (List Rec)
  | [], _, acc => Except.ok acc
  | l :: rs, cur, acc =>
    if l = markerChars then
      match rs with
      | t :: o :: rs2 =>
        let cur2 := startRec t o
        if needFin rs2 then
          match finalizeRec cur2 with
          | Except.error e => Except.error e
          | Except.ok ev => parseLoop rs2 cur2 (acc ++ [ev])
        else parseLoop rs2 cur2 acc
      | _ => Except.error PErr.indexError
    else
      let cur2 := addAttrLine cur l
      if needFin rs then
        match finalizeRec cur2 with
        | Except.error e => Except.error e
        | Except.ok ev => parseLoop rs cur2 (acc ++ [ev])
      else parseLoop rs cur2 acc

/-- Parse a list of already-split lines starting from the empty record and no
events. -/
def parseLines (lines : List (List Char)) : Except PErr (List Rec) :=
  parseLoop lines [] []

/-- `parse_log_file` on file content: `logfile.strip().split("\n")`, then the
scan.  (The surrounding `try/except IOError` only catches file-system errors,
which are external here; every `PErr` propagates out of the function in
Python.) -/
def parse_log_file (content : String) : Except PErr (List Rec) :=
  parseLines (splitLines (pystrip content.data))

/-! ## Aggregation reducers

Each reducer reads `event["operation_type"]` / `event["ExecutionTime"]` like
the Python code: a missing key is a `KeyError`; a value of the wrong type
surfaces as a `TypeError` (Python raises it at the first hashing, comparison
or arithmetic use of the ill-typed value; the model raises it at extraction,
which is indistinguishable for whole-run success/failure). -/

/-- `event["operation_type"]`, which the reducers immediately use as a dict
key: a `list` value would be unhashable. -/
def getOpV (ev : Rec) : Except PErr Value :=
  match lookupV ev opKey with
  | none => Except.error (PErr.keyError opKey)
  | some (Value.vlist _) => Except.error PErr.typeError
  | some v => Except.ok v

/-- `event["ExecutionTime"]`, which the reducers compare and add as an
integer. -/
def getExecI (ev : Rec) : Except PErr Int :=
  match lookupV ev exeKey with
  | none => Except.error (PErr.keyError exeKey)
  | some (Value.vint n) => Except.ok n
  | some _ => Except.error PErr.typeError

def hasKeyD {α : Type} [DecidableEq α] {β : Type} :
    List (α × β) → α → Bool
  | [], _ => false
  | (k', _) :: rest, k => if k' = k then true else hasKeyD rest k

def lookupD {α : Type} [DecidableEq α] {β : Type} :
    List (α × β) → α → Option β
  | [], _ => none
  | (k', v') :: rest, k => if k' = k then some v' else lookupD rest k

/-- Add `d` to the entry of key `k` (first match; keys are unique). -/
def addAtKey {α : Type} [DecidableEq α] :
    List (α × Int) → α → Int → List (α × Int)
  | [], _, _ => []
  | (k', v') :: rest, k, d =>
    if k' = k then (k', v' + d) :: rest else (k', v') :: addAtKey rest k d

/-- Increment the count of key `k` (first match; keys are unique). -/
def bumpAtKey {α : Type} [DecidableEq α] :
    List (α × Nat) → α → List (α × Nat)
  | [], _ => []
  | (k', v') :: rest, k =>
    if k' = k then (k', v' + 1) :: rest else (k', v') :: bumpAtKey rest k

/-- The accumulation loop of `calculate_average_execution_time`
(lines 109–121): per-operation counts and sums in encounter order, plus the
running total and event count. -/
def avgLoop : List Rec → List (Value × Nat) → List (Value × Int) → Int →
    Nat → Except PErr (List (Value × Nat) × List (Value × Int) × Int × Nat)
  | [], cnts, sums, tot, n => Except.ok (cnts, sums, tot, n)
  | ev :: rest, cnts, sums, tot, n =>
    match getOpV ev with
    | Except.error e => Except.error e
    | Except.ok op =>
      match getExecI ev with
      | Except.error e => Except.error e
      | Except.ok ex =>
        if hasKeyD cnts op then
          avgLoop rest (bumpAtKey cnts op) (addAtKey sums op ex) (tot + ex)
            (n + 1)
        else
          avgLoop rest (cnts ++ [(op, 1)]) (sums ++ [(op, ex)]) (tot + ex)
            (n + 1)

/-- `calculate_average_execution_time` (lines 100–130): per-operation
truncated float means, per-operation counts, and the overall mean
`int(total / total_operations)` — a `ZeroDivisionError` on an empty event
sequence. -/
def calculate_average_execution_time (events : List Rec) :
    Except PErr (List (Value × Int) × List (Value × Nat) × Int) :=
  match avgLoop events [] [] 0 0 with
  | Except.error e => Except.error e
  | Except.ok (cnts, sums, tot, n) =>
    let avgs := cnts.map
      (fun p => (p.1, pyIntDivFloat ((lookupD sums p.1).getD 0) p.2))
    if n = 0 then Except.error PErr.zeroDivisionError
    else Except.ok (avgs, cnts, pyIntDivFloat tot n)

/-- `ExecutionTime` of an event as the sort key uses it; total under the
well-formedness assumption every theorem carries (Python would have raised
before sorting otherwise). -/
def exD (ev : Rec) : Int :=
  match lookupV ev exeKey with
  | some (Value.vint n) => n
  | _ => 0

/-- Descending order on `ExecutionTime` (Python's
`sorted(…, key=…, reverse=True)` sorts by the key, descending, and is
stable; any stable sort computes the same list, so a stable insertion sort
models it exactly). -/
def descExec (a b : Rec) : Prop := exD b ≤ exD a

instance : DecidableRel descExec := fun a b => Int.decLe (exD b) (exD a)

instance : IsTotal Rec descExec := ⟨fun a b => Int.le_total (exD b) (exD a)⟩

instance : IsTrans Rec descExec :=
  ⟨fun _ _ _ h1 h2 => le_trans h2 h1⟩

/-- `get_events_with_highest_execution_times` (lines 133–140): sort by
`ExecutionTime` descending (stable) and take the first `n`.  `sorted`
computes the key of every event first, so a malformed event fails the whole
call. -/
def get_events_with_highest_execution_times (events : List Rec) (n : Nat) :
    Except PErr (List Rec) :=
  match events.mapM getExecI with
  | Except.error e => Except.error e
  | Except.ok _ => Except.ok ((List.insertionSort descExec events).take n)

/-- Word characters of the regex `\w` (ASCII; the logs are ASCII). -/
def isWordChar (c : Char) : Bool := c.isAlphanum ∨ c = '_'

/-- The scan of `re.findall(r'\((\w+)=', filter_str)` with explicit fuel
(every step consumes at least one character, so the string length is always
enough fuel): all non-overlapping matches, left to right; a match is `(`, a
maximal nonempty word-character run, `=`; the scan resumes after the `=` of a
match and one character past a failed `(`. -/
def findFAAux : Nat → List Char → List String
  | 0, _ => []
  | _ + 1, [] => []
  | f + 1, '(' :: rest =>
    match rest.dropWhile isWordChar with
    | '=' :: r2 =>
      if rest.takeWhile isWordChar = [] then findFAAux f rest
      else String.mk (rest.takeWhile isWordChar) :: findFAAux f r2
    | _ => findFAAux f rest
  | f + 1, _ :: rest => findFAAux f rest

/-- `re.findall(r'\((\w+)=', filter_str)`. -/
def findFilterAttrs (cs : List Char) : List String := findFAAux cs.length cs

/-- The tally loop of `extract_filter_attributes` (lines 149–157): events
without a `filter` attribute are skipped; a non-string `filter` value makes
`re.findall` raise `TypeError`. -/
def filterLoop : List Rec → List (String × Nat) →
    Except PErr (List (String × Nat))
  | [], cs => Except.ok cs
  | ev :: rest, cs =>
    match lookupV ev (("filter")) with
    | none => filterLoop rest cs
    | some (Value.str s) =>
      filterLoop rest ((findFilterAttrs s.data).foldl
        (fun acc name =>
          if hasKeyD acc name then bumpAtKey acc name else acc ++ [(name, 1)])
        cs)
    | some _ => Except.error PErr.typeError

/-- Descending order on counts for the final sort of
`extract_filter_attributes` (stable on ties). -/
def descCount (a b : String × Nat) : Prop := b.2 ≤ a.2

instance : DecidableRel descCount := fun a b => Nat.decLe b.2 a.2

instance : IsTotal (String × Nat) descCount :=
  ⟨fun a b => Nat.le_total b.2 a.2⟩

instance : IsTrans (String × Nat) descCount :=
  ⟨fun _ _ _ h1 h2 => le_trans h2 h1⟩

/-- `extract_filter_attributes` (lines 143–161). -/
def extract_filter_attributes (events : List Rec) :
    Except PErr (List (String × Nat)) :=
  match filterLoop events [] with
  | Except.error e => Except.error e
  | Except.ok cs => Except.ok (List.insertionSort descCount cs)

/-- The per-operation bucket table `{threshold: 0 for threshold in
thresholds}`: one entry per distinct threshold, first-occurrence order. -/
def initInner (ts : List Int) : List (Int × Nat) :=
  ts.foldl (fun inn t => if hasKeyD inn t then inn else inn ++ [(t, 0)]) []

/-- The inner loop of lines 227–230: scan the thresholds in order, increment
the bucket of the first threshold at or above the execution time, stop; do
nothing when every threshold is below it. -/
def assignBucket (inner : List (Int × Nat)) : List Int → Int →
    List (Int × Nat)
  | [], _ => inner
  | t :: ts, ex => if ex ≤ t then bumpAtKey inner t else assignBucket inner ts ex

/-- Apply `f` to the entry of key `k` (first match; keys are unique). -/
def updAtKey {α : Type} [DecidableEq α] {β : Type} :
    List (α × β) → α → (β → β) → List (α × β)
  | [], _, _ => []
  | (k', v') :: rest, k, f =>
    if k' = k then (k', f v') :: rest else (k', v') :: updAtKey rest k f

/-- The event loop of `calculate_execution_time_distribution`
(lines 220–230). -/
def distLoop (ts : List Int) : List Rec → List (Value × List (Int × Nat)) →
    Except PErr (List (Value × List (Int × Nat)))
  | [], d => Except.ok d
  | ev :: rest, d =>
    match getOpV ev with
    | Except.error e => Except.error e
    | Except.ok op =>
      match getExecI ev with
      | Except.error e => Except.error e
      | Except.ok ex =>
        let d1 := if hasKeyD d op then d else d ++ [(op, initInner ts)]
        distLoop ts rest (updAtKey d1 op (fun inner => assignBucket inner ts ex))

/-- `calculate_execution_time_distribution` (lines 214–232). -/
def calculate_execution_time_distribution (events : List Rec)
    (ts : List Int) : Except PErr (List (Value × List (Int × Nat))) :=
  distLoop ts events []

/-! ## Record segmentation

`splitChunksAux cur lines` lists the records the scanner finalizes, each as
its starting dict (empty for a headerless leading segment, the two header
entries for a marker-opened record) together with its attribute lines.  It is
the declarative counterpart of `parseLoop`, proved equivalent below wherever
the scan succeeds. -/

def notMarker (l : List Char) : Bool := decide (l ≠ markerChars)

/-- One scanner chunk: the initial record and the attribute lines folded into
it before finalization. -/
def Chunk : Type := Rec × List (List Char)

instance : DecidableEq Chunk := by
  unfold Chunk
  infer_instance

/-- Finalizing one chunk: fold its attribute lines into its initial record,
then finalize. -/
def finalizeChunk (c : Chunk) : Except PErr Rec :=
  finalizeRec (c.2.foldl addAttrLine c.1)

def splitChunksAux : Nat → Rec → List (List Char) → List Chunk
  | 0, _, _ => []
  | _ + 1, _, [] => []
  | f + 1, cur, l :: rs =>
    if l = markerChars then
      match rs with
      | t :: o :: rs2 =>
        (startRec t o, rs2.takeWhile notMarker) ::
          splitChunksAux f (startRec t o) (rs2.dropWhile notMarker)
      | _ => []
    else
      (cur, l :: rs.takeWhile notMarker) ::
        splitChunksAux f cur (rs.dropWhile notMarker)

/-- The records of an input, as the scanner delimits them (the fuel is the
number of lines: every chunk consumes at least one line). -/
def recordChunks (lines : List (List Char)) : List Chunk :=
  splitChunksAux lines.length [] lines

/-! ## Spec-side definitions used by the theorems -/

/-- The event has an integer `ExecutionTime` entry (true of every event the
parser emits; the reducers crash on anything else). -/
def hasIntExec (ev : Rec) : Bool :=
  match lookupV ev exeKey with
  | some (Value.vint _) => true
  | _ => false

/-- The event has an `operation_type` entry that can serve as a dict key
(anything but a list). -/
def hasHashableOp (ev : Rec) : Bool :=
  match lookupV ev opKey with
  | some (Value.vlist _) => false
  | some _ => true
  | none => false

/-- Well-formedness used by the top-N theorem: every event carries an integer
`ExecutionTime`. -/
def wfExec (evs : List Rec) : Prop := ∀ ev ∈ evs, hasIntExec ev = true

/-- Well-formedness used by the grouping reducers: every event carries an
integer `ExecutionTime` and a hashable `operation_type`. -/
def wfEvents (evs : List Rec) : Prop :=
  ∀ ev ∈ evs, hasHashableOp ev = true ∧ hasIntExec ev = true

instance wfExecDecidable (evs : List Rec) : Decidable (wfExec evs) := by
  unfold wfExec
  infer_instance

instance wfEventsDecidable (evs : List Rec) : Decidable (wfEvents evs) := by
  unfold wfEvents
  infer_instance

/-- The `operation_type` value of an event (as the reducers read it; the
default is irrelevant under well-formedness). -/
def opD (ev : Rec) : Value :=
  match lookupV ev opKey with
  | some v => v
  | none => Value.vint 0

/-- Number of events of one operation type. -/
def countOp (evs : List Rec) (op : Value) : Nat :=
  evs.countP (fun ev => decide (opD ev = op))

/-- Total `ExecutionTime` of a list of events. -/
def sumExec (evs : List Rec) : Int := (evs.map exD).sum

/-- The events of one operation type, in order. -/
def eventsOf (evs : List Rec) (op : Value) : List Rec :=
  evs.filter (fun ev => decide (opD ev = op))

/-- The first (under an ascending list: the smallest) threshold at or above
`x`. -/
def leastGE (ts : List Int) (x : Int) : Option Int :=
  ts.find? (fun t => decide (x ≤ t))

/-- Count of a bucket in a distribution table, 0 when absent. -/
def bucketCount (d : List (Value × List (Int × Nat))) (op : Value)
    (t : Int) : Nat :=
  match lookupD d op with
  | none => 0
  | some inner => (lookupD inner t).getD 0

/-- Sum of all bucket counts of one operation type, 0 when absent. -/
def bucketSum (d : List (Value × List (Int × Nat))) (op : Value) : Nat :=
  match lookupD d op with
  | none => 0
  | some inner => (inner.map Prod.snd).sum

/-- `t` is the smallest member of `ts` at or above `e` — the bucket the spec
assigns an execution time to. -/
def isLeastGE (ts : List Int) (e t : Int) : Prop :=
  t ∈ ts ∧ e ≤ t ∧ ∀ u ∈ ts, e ≤ u → t ≤ u

instance isLeastGEDecidable (ts : List Int) (e t : Int) :
    Decidable (isLeastGE ts e t) := by
  unfold isLeastGE
  infer_instance

/-- Every marker line is followed by at least two further lines. -/
def markersFollowedByTwo : List (List Char) → Bool
  | [] => true
  | l :: rs =>
    (if l = markerChars then decide (2 ≤ rs.length) else true) &&
      markersFollowedByTwo rs

/-- How many attribute lines (lines containing `": "`) of a record carry the
key `k`. -/
def attrKeyOccurrences (ls : List (List Char)) (k : String) : Nat :=
  (ls.filterMap splitFirst).countP (fun p => decide (String.mk p.1 = k))

/-- The values of the attribute lines with key `k`, in encounter order. -/
def attrValuesOf (ls : List (List Char)) (k : String) : List String :=
  ls.filterMap (fun l =>
    match splitFirst l with
    | some (kcs, vcs) =>
      if String.mk kcs = k then some (String.mk vcs) else none
    | none => none)

/-- The dict a chunk's record holds at finalization time. -/
def chunkRec (c : Chunk) : Rec := c.2.foldl addAttrLine c.1

/-- The malformedness of claim C8 for one record: its `timestamp` or
`received` value is a string that fails to parse in the fixed format, or the
`received` attribute is absent at finalization time. -/
def chunkBad (c : Chunk) : Bool :=
  (match lookupV (chunkRec c) tsKey with
   | some (Value.str s) => (parseTimestamp s.data).isNone
   | _ => false) ||
  (match lookupV (chunkRec c) recvKey with
   | some (Value.str s) => (parseTimestamp s.data).isNone
   | none => true
   | _ => false)

/-- The keys the parser itself populates; attribute lines using them collide
with the parser's entries. -/
def reservedKeys : List String := [tsKey, opKey, exeKey]

/-- How a dict value evolves as further values for the same key are recorded
(`none` = key absent so far): the accumulation of §insertAttr, abstractly. -/
def combineV : Option Value → List String → Option Value
  | cur, [] => cur
  | none, v :: vs => combineV (some (Value.str v)) vs
  | some old, v :: vs => combineV (some (pushValue old v)) vs

/-- Cached instance: result type of `calculate_average_execution_time`. -/
instance avgResultDecEq :
    DecidableEq (List (Value × Int) × List (Value × Nat) × Int) :=
  inferInstance

/-! ## Theorems -/

theorem replaceDashDash_clean_id : (l : List Char) → hasDashDash l = false →
    replaceDashDash l = l
  | [], _ => rfl
  | [_], _ => rfl
  | c1 :: c2 :: rest, h => by
    have h1 : ¬(c1 = '-' ∧ c2 = '-') := by
      simp [hasDashDash] at h
      tauto
    have h2 : hasDashDash (c2 :: rest) = false := by
      simp [hasDashDash] at h ⊢
      tauto
    simp [replaceDashDash, h1]
    exact replaceDashDash_clean_id (c2 :: rest) h2

theorem replaceDashDash_delim : (pre : List Char) → ∀ post : List Char,
    hasDashDash (pre ++ ['-']) = false →
    replaceDashDash (pre ++ '-' :: '-' :: post) = pre ++ '\n' :: replaceDashDash post
  | [], post, _ => by simp [replaceDashDash]
  | [c], post, h => by
    have hc : c ≠ '-' := by
      simp [hasDashDash] at h
      exact h
    simp [replaceDashDash, hc]
  | c1 :: c2 :: pre, post, h => by
    have h1 : ¬(c1 = '-' ∧ c2 = '-') := by
      simp [hasDashDash] at h
      tauto
    have h2 : hasDashDash ((c2 :: pre) ++ ['-']) = false := by
      simp [hasDashDash] at h ⊢
      tauto
    have ih := replaceDashDash_delim (c2 :: pre) post h2
    simp only [List.cons_append] at ih ⊢
    simp [replaceDashDash, h1, ih]

/-- Claim C7: the preprocessor replaces every (left-to-right, non-overlapping)
occurrence of the two-character delimiter `--` by a line break and does
nothing else; in particular it is the identity on text containing no `--`,
and hence idempotent on such text. -/
theorem c7_preprocessor :
    (∀ s : String, hasDashDash s.data = false →
      read_and_modify s = s ∧
      read_and_modify (read_and_modify s) = read_and_modify s) ∧
    (∀ pre post : List Char, hasDashDash (pre ++ ['-']) = false →
      replaceDashDash (pre ++ '-' :: '-' :: post) =
        pre ++ '\n' :: replaceDashDash post) := by
  refine ⟨fun s h => ?_, replaceDashDash_delim⟩
  obtain ⟨l⟩ := s
  have hid : read_and_modify (String.mk l) = String.mk l := by
    show String.mk (replaceDashDash l) = String.mk l
    rw [replaceDashDash_clean_id l h]
  exact ⟨hid, by rw [hid, hid]⟩

/-- Witness for C7 at concrete inputs. -/
theorem c7_preprocessor_witness :
    (hasDashDash (("key: value").data) = false ∧
      read_and_modify (("key: value")) = ("key: value")) ∧
    (hasDashDash ([' '] ++ ['-']) = false ∧
      replaceDashDash ([' '] ++ '-' :: '-' :: ("x").data) =
        [' '] ++ '\n' :: replaceDashDash (("x").data)) :=
  ⟨⟨by decide, (c7_preprocessor.1 (("key: value")) (by decide)).1⟩,
   ⟨by decide, c7_preprocessor.2 [' '] (("x").data) (by decide)⟩⟩

/-- Claim C9 (code bug): on empty normalized input the parser does not return
an empty event sequence; it finalizes the empty pending record and fails with
`KeyError('timestamp')`. -/
theorem c9_empty_input_crash :
    parse_log_file ("") = Except.error (PErr.keyError tsKey) := by decide

/-- Claim C1 (code bug): the failing input.  For the record whose timestamps
lie 37378608205740996 μs apart, the float pipeline
`int(abs(total_seconds() * 1000))` stores 37378608205741, while the absolute
difference in whole milliseconds, truncated, is 37378608205740: the double
rounding of `μ / 10⁶` and `· * 1000` rounds up across the integer boundary. -/
theorem c1_execution_time_float_bug :
    parseLines [("AuditV3").data, ("1970-01-01-00:00:00.000000+00:00").data,
        ("SEARCH").data,
        ("received: 3154-06-25-18:43:25.740996+00:00").data] =
      Except.ok [[(tsKey, Value.str ("1970-01-01-00:00:00.000000+00:00")),
        (opKey, Value.str ("SEARCH")),
        (recvKey, Value.str ("3154-06-25-18:43:25.740996+00:00")),
        (exeKey, Value.vint 37378608205741)]] ∧
    parseTimestamp (("1970-01-01-00:00:00.000000+00:00").data) =
      some 62135683200000000 ∧
    parseTimestamp (("3154-06-25-18:43:25.740996+00:00").data) =
      some 99514291405740996 ∧
    (99514291405740996 - 62135683200000000 : Int) = 37378608205740996 ∧
    (37378608205740996 : Int) / 1000 = 37378608205740 ∧
    (37378608205741 : Int) ≠ 37378608205740 := by decide

/-- Counterexample to claim C2 as stated: in this record the attribute key
`operation_type` occurs exactly once among the attribute lines, yet the
parsed event stores a two-element list for it (the attribute collided with
the parser-populated header entry), not a single string. -/
theorem c2_counterexample :
    parseLines [("AuditV3").data, ("2024-01-01-10:00:00.000000+00:00").data,
        ("SEARCH").data, ("operation_type: OOPS").data,
        ("received: 2024-01-01-10:00:00.150000+00:00").data] =
      Except.ok [[(tsKey, Value.str ("2024-01-01-10:00:00.000000+00:00")),
        (opKey, Value.vlist [Value.str ("SEARCH"), Value.str ("OOPS")]),
        (recvKey, Value.str ("2024-01-01-10:00:00.150000+00:00")),
        (exeKey, Value.vint 150)]] ∧
    attrKeyOccurrences [("operation_type: OOPS").data] opKey = 1 ∧
    lookupV [(tsKey, Value.str ("2024-01-01-10:00:00.000000+00:00")),
        (opKey, Value.vlist [Value.str ("SEARCH"), Value.str ("OOPS")]),
        (recvKey, Value.str ("2024-01-01-10:00:00.150000+00:00")),
        (exeKey, Value.vint 150)] opKey =
      some (Value.vlist [Value.str ("SEARCH"), Value.str ("OOPS")]) := by decide

/-- Counterexample to claim C5 as stated: the latency-summary reducer is not
guarded on the empty sequence — it fails with `ZeroDivisionError` — and on a
single event with `ExecutionTime` 2⁵³ + 1 the reported mean is 2⁵³ (the float
division rounds), not the truncated integer mean 2⁵³ + 1. -/
theorem c5_counterexample :
    calculate_average_execution_time ([] : List Rec) =
      Except.error PErr.zeroDivisionError ∧
    calculate_average_execution_time
        [[(opKey, Value.str ("SEARCH")), (exeKey, Value.vint 9007199254740993)]] =
      Except.ok ([(Value.str ("SEARCH"), 9007199254740992)],
        [(Value.str ("SEARCH"), 1)], 9007199254740992) ∧
    (9007199254740993 : Int) / 1 = 9007199254740993 ∧
    (9007199254740992 : Int) ≠ 9007199254740993 := by decide

/-- Claim C6: the five-line scenario parses to exactly one event with
operation type `SEARCH` and `ExecutionTime` 150, and the filter-attribute
frequency of that event sequence is `[("uid", 1)]`. -/
theorem c6_scenario :
    parseLines [("AuditV3").data, ("2024-01-01-10:00:00.000000+00:00").data,
        ("SEARCH").data, ("filter: (uid=bob)").data,
        ("received: 2024-01-01-10:00:00.150000+00:00").data] =
      Except.ok [[(tsKey, Value.str ("2024-01-01-10:00:00.000000+00:00")),
        (opKey, Value.str ("SEARCH")),
        (("filter"), Value.str ("(uid=bob)")),
        (recvKey, Value.str ("2024-01-01-10:00:00.150000+00:00")),
        (exeKey, Value.vint 150)]] ∧
    lookupV [(tsKey, Value.str ("2024-01-01-10:00:00.000000+00:00")),
        (opKey, Value.str ("SEARCH")),
        (("filter"), Value.str ("(uid=bob)")),
        (recvKey, Value.str ("2024-01-01-10:00:00.150000+00:00")),
        (exeKey, Value.vint 150)] opKey = some (Value.str ("SEARCH")) ∧
    lookupV [(tsKey, Value.str ("2024-01-01-10:00:00.000000+00:00")),
        (opKey, Value.str ("SEARCH")),
        (("filter"), Value.str ("(uid=bob)")),
        (recvKey, Value.str ("2024-01-01-10:00:00.150000+00:00")),
        (exeKey, Value.vint 150)] exeKey = some (Value.vint 150) ∧
    extract_filter_attributes
        [[(tsKey, Value.str ("2024-01-01-10:00:00.000000+00:00")),
          (opKey, Value.str ("SEARCH")),
          (("filter"), Value.str ("(uid=bob)")),
          (recvKey, Value.str ("2024-01-01-10:00:00.150000+00:00")),
          (exeKey, Value.vint 150)]] = Except.ok [(("uid"), 1)] := by decide

theorem parseLoop_cons_marker (t o : List Char) (rs2 : List (List Char))
    (cur : Rec) (acc : List Rec) :
    parseLoop (markerChars :: t :: o :: rs2) cur acc =
      (if needFin rs2 then
        match finalizeRec (startRec t o) with
        | Except.error e => Except.error e
        | Except.ok ev => parseLoop rs2 (startRec t o) (acc ++ [ev])
      else parseLoop rs2 (startRec t o) acc) := by
  rw [parseLoop.eq_def]
  simp

theorem parseLoop_cons_nonmarker (l : List Char) (rs : List (List Char))
    (cur : Rec) (acc : List Rec) (hl : l ≠ markerChars) :
    parseLoop (l :: rs) cur acc =
      (if needFin rs then
        match finalizeRec (addAttrLine cur l) with
        | Except.error e => Except.error e
        | Except.ok ev => parseLoop rs (addAttrLine cur l) (acc ++ [ev])
      else parseLoop rs (addAttrLine cur l) acc) := by
  rw [parseLoop.eq_def]
  cases rs with
  | nil => simp [hl]
  | cons r rs =>
    cases rs with
    | nil => simp [hl]
    | cons r2 rs2 => simp [hl]

theorem parseLoop_marker_short (cur : Rec) (acc : List Rec) :
    parseLoop [markerChars] cur acc = Except.error PErr.indexError ∧
    ∀ t : List Char, parseLoop [markerChars, t] cur acc =
      Except.error PErr.indexError := by
  constructor
  · rw [parseLoop.eq_def]
    simp
  · intro t
    rw [parseLoop.eq_def]
    simp

theorem finalizeRec_ne_indexError (r : Rec) :
    finalizeRec r ≠ Except.error PErr.indexError := by
  intro h
  unfold finalizeRec at h
  repeat' split at h
  all_goals simp_all

theorem markersFollowedByTwo_tail {l : List Char} {rs : List (List Char)}
    (h : markersFollowedByTwo (l :: rs) = true) :
    markersFollowedByTwo rs = true := by
  simp [markersFollowedByTwo] at h
  exact h.2

theorem markersFollowedByTwo_head {rs : List (List Char)}
    (h : markersFollowedByTwo (markerChars :: rs) = true) :
    2 ≤ rs.length := by
  simp [markersFollowedByTwo] at h
  exact h.1

theorem parseLoop_no_indexError :
    ∀ (fuel : Nat) (ls : List (List Char)) (cur : Rec) (acc : List Rec),
      ls.length ≤ fuel → markersFollowedByTwo ls = true →
      parseLoop ls cur acc ≠ Except.error PErr.indexError := by
  intro fuel
  induction fuel with
  | zero =>
    intro ls cur acc hlen _
    have hnil : ls = [] := List.eq_nil_of_length_eq_zero (Nat.le_zero.mp hlen)
    subst hnil
    simp [parseLoop]
  | succ n ih =>
    intro ls cur acc hlen hm
    match ls with
    | [] => simp [parseLoop]
    | l :: rs =>
      by_cases hl : l = markerChars
      · subst hl
        have h2 : 2 ≤ rs.length := markersFollowedByTwo_head hm
        match rs, h2 with
        | t :: o :: rs2, _ =>
          have hm2 : markersFollowedByTwo rs2 = true :=
            markersFollowedByTwo_tail (markersFollowedByTwo_tail
              (markersFollowedByTwo_tail hm))
          have hlen2 : rs2.length ≤ n := by
            simp at hlen
            omega
          rw [parseLoop_cons_marker]
          cases hfin : needFin rs2 with
          | false => simpa [hfin] using ih rs2 (startRec t o) acc hlen2 hm2
          | true =>
            cases hf : finalizeRec (startRec t o) with
            | error e =>
              have hne : e ≠ PErr.indexError := by
                intro he
                subst he
                exact finalizeRec_ne_indexError (startRec t o) hf
              simp [hfin, hf, hne]
            | ok ev =>
              simpa [hfin, hf] using
                ih rs2 (startRec t o) (acc ++ [ev]) hlen2 hm2
      · have hm2 : markersFollowedByTwo rs = true := markersFollowedByTwo_tail hm
        have hlen2 : rs.length ≤ n := by
          simp at hlen
          omega
        rw [parseLoop_cons_nonmarker l rs cur acc hl]
        cases hfin : needFin rs with
        | false => simpa [hfin] using ih rs (addAttrLine cur l) acc hlen2 hm2
        | true =>
          cases hf : finalizeRec (addAttrLine cur l) with
          | error e =>
            have hne : e ≠ PErr.indexError := by
              intro he
              subst he
              exact finalizeRec_ne_indexError (addAttrLine cur l) hf
            simp [hfin, hf, hne]
          | ok ev =>
            simpa [hfin, hf] using
              ih rs (addAttrLine cur l) (acc ++ [ev]) hlen2 hm2

/-- Claim C10, amended: if every occurrence of the marker line `AuditV3` is
followed by at least two further lines then the scanner never reads past the
end of the line sequence.  (The converse direction of the claim is false:
see the counterexample — a marker line consumed as a timestamp or
operation-type field is not scanned as a record start, so an input may stay in
bounds although a marker occurrence lacks two followers.) -/
theorem c10_marker_bounds (lines : List (List Char))
    (h : markersFollowedByTwo lines = true) :
    parseLines lines ≠ Except.error PErr.indexError :=
  parseLoop_no_indexError lines.length lines [] [] le_rfl h

/-- Witness for C10 at a concrete input. -/
theorem c10_marker_bounds_witness :
    markersFollowedByTwo [("AuditV3").data, ("a").data, ("b").data] = true ∧
    parseLines [("AuditV3").data, ("a").data, ("b").data] ≠
      Except.error PErr.indexError :=
  ⟨by decide, c10_marker_bounds [("AuditV3").data, ("a").data, ("b").data]
    (by decide)⟩

/-- Counterexample to claim C10 as stated (an "if and only if"): in the input
`[AuditV3, AuditV3, x]` the second marker occurrence (it is the
second-to-last line) is not followed by two further lines, yet parsing stays
in bounds — the second marker is consumed blindly as the timestamp field and
the run fails with a `ValueError` from `strptime`, not with an out-of-bounds
access. -/
theorem c10_counterexample :
    parseLines [("AuditV3").data, ("AuditV3").data, ("x").data] =
      Except.error PErr.valueError ∧
    parseLines [("AuditV3").data, ("AuditV3").data, ("x").data] ≠
      Except.error PErr.indexError ∧
    markersFollowedByTwo [("AuditV3").data, ("AuditV3").data, ("x").data] =
      false := by decide

theorem needFin_nil : needFin [] = true := rfl

theorem needFin_cons (x : List Char) (xs : List (List Char)) :
    needFin (x :: xs) = decide (x = markerChars) := rfl

theorem needFin_dropWhile (xs : List (List Char)) :
    needFin (xs.dropWhile notMarker) = true := by
  induction xs with
  | nil => rfl
  | cons x xs ih =>
    by_cases hx : x = markerChars
    · simp [List.dropWhile, notMarker, hx, needFin_cons]
    · simpa [List.dropWhile, notMarker, hx] using ih

theorem parseLoop_cur_irrelevant (rest : List (List Char)) (c1 c2 : Rec)
    (acc : List Rec) (h : needFin rest = true) :
    parseLoop rest c1 acc = parseLoop rest c2 acc := by
  cases rest with
  | nil => rfl
  | cons l rs =>
    have hl : l = markerChars := by
      simpa [needFin_cons] using h
    subst hl
    rw [parseLoop.eq_def, parseLoop.eq_def]
    simp

theorem parseLoop_attr_run :
    ∀ (attrs rest : List (List Char)) (cur : Rec) (acc : List Rec),
      (∀ a ∈ attrs, a ≠ markerChars) → attrs ≠ [] → needFin rest = true →
      parseLoop (attrs ++ rest) cur acc =
        (match finalizeRec (attrs.foldl addAttrLine cur) with
         | Except.error e => Except.error e
         | Except.ok ev =>
           parseLoop rest (attrs.foldl addAttrLine cur) (acc ++ [ev])) := by
  intro attrs
  induction attrs with
  | nil => intro rest cur acc _ hne _; exact absurd rfl hne
  | cons a attrs ih =>
    intro rest cur acc hnm _ hfin
    have ha : a ≠ markerChars := hnm a (List.mem_cons_self a attrs)
    cases attrs with
    | nil =>
      rw [List.singleton_append, parseLoop_cons_nonmarker a rest cur acc ha,
        if_pos hfin]
      rfl
    | cons a2 attrs2 =>
      have ha2 : a2 ≠ markerChars :=
        hnm a2 (List.mem_cons_of_mem a (List.mem_cons_self a2 attrs2))
      rw [List.cons_append,
        parseLoop_cons_nonmarker a ((a2 :: attrs2) ++ rest) cur acc ha]
      have hfin2 : needFin (a2 :: (attrs2 ++ rest)) = false := by
        simp [needFin_cons, ha2]
      rw [if_neg (by simp [hfin2])]
      exact ih rest (addAttrLine cur a) acc
        (fun x hx => hnm x (List.mem_cons_of_mem a hx)) (by simp) hfin

theorem splitChunksAux_nil (f : Nat) (cur : Rec) :
    splitChunksAux f cur [] = [] := by
  cases f <;> rfl

theorem splitChunksAux_marker (f : Nat) (cur : Rec) (t o : List Char)
    (rs2 : List (List Char)) :
    splitChunksAux (f + 1) cur (markerChars :: t :: o :: rs2) =
      (startRec t o, rs2.takeWhile notMarker) ::
        splitChunksAux f (startRec t o) (rs2.dropWhile notMarker) := by
  rw [splitChunksAux.eq_def]
  simp

theorem splitChunksAux_nonmarker (f : Nat) (cur : Rec) (l : List Char)
    (rs : List (List Char)) (hl : l ≠ markerChars) :
    splitChunksAux (f + 1) cur (l :: rs) =
      (cur, l :: rs.takeWhile notMarker) ::
        splitChunksAux f cur (rs.dropWhile notMarker) := by
  rw [splitChunksAux.eq_def]
  cases rs with
  | nil => simp [hl]
  | cons r rs =>
    cases rs with
    | nil => simp [hl]
    | cons r2 rs2 => simp [hl]

theorem takeWhile_all_notMarker (xs : List (List Char)) :
    ∀ a ∈ xs.takeWhile notMarker, a ≠ markerChars := by
  intro a ha
  have := List.mem_takeWhile_imp ha
  simpa [notMarker] using this

/-- The scanning loop agrees with record segmentation plus per-record
finalization wherever it succeeds: a successful scan from any intermediate
state appends exactly the finalized records of the remaining chunks. -/
theorem parseLoop_chunks :
    ∀ (fuel : Nat) (ls : List (List Char)) (cur : Rec) (acc evs : List Rec),
      ls.length ≤ fuel →
      parseLoop ls cur acc = Except.ok evs →
      ∃ tail, (splitChunksAux fuel cur ls).mapM finalizeChunk =
        Except.ok tail ∧ evs = acc ++ tail := by
  intro fuel
  induction fuel with
  | zero =>
    intro ls cur acc evs hlen hp
    have hnil : ls = [] := List.eq_nil_of_length_eq_zero (Nat.le_zero.mp hlen)
    subst hnil
    refine ⟨[], by rw [splitChunksAux_nil]; rfl, ?_⟩
    simpa [parseLoop] using hp.symm
  | succ n ih =>
    intro ls cur acc evs hlen hp
    match ls with
    | [] =>
      refine ⟨[], by rw [splitChunksAux_nil]; rfl, ?_⟩
      simpa [parseLoop] using hp.symm
    | l :: rs =>
      by_cases hl : l = markerChars
      · subst hl
        match rs with
        | [] =>
          rw [(parseLoop_marker_short cur acc).1] at hp
          exact absurd hp (by simp)
        | [t] =>
          rw [(parseLoop_marker_short cur acc).2 t] at hp
          exact absurd hp (by simp)
        | t :: o :: rs2 =>
          rw [parseLoop_cons_marker t o rs2 cur acc] at hp
          rw [splitChunksAux_marker n cur t o rs2]
          have hlen2 : (rs2.dropWhile notMarker).length ≤ n := by
            have hdw : (rs2.dropWhile notMarker).length ≤ rs2.length :=
              List.Sublist.length_le (List.dropWhile_sublist notMarker)
            simp at hlen
            omega
          by_cases hfin : needFin rs2 = true
          · -- no attribute lines: the chunk's attribute list is empty
            have htw : rs2.takeWhile notMarker = [] := by
              cases rs2 with
              | nil => rfl
              | cons x xs =>
                have hx : x = markerChars := by
                  simpa [needFin_cons] using hfin
                simp [List.takeWhile, notMarker, hx]
            have hdw : rs2.dropWhile notMarker = rs2 := by
              cases rs2 with
              | nil => rfl
              | cons x xs =>
                have hx : x = markerChars := by
                  simpa [needFin_cons] using hfin
                simp [List.dropWhile, notMarker, hx]
            rw [if_pos hfin] at hp
            cases hf : finalizeRec (startRec t o) with
            | error e =>
              rw [hf] at hp
              have hcontra : (Except.error e : Except PErr (List Rec)) =
                  Except.ok evs := hp
              exact absurd hcontra (by simp)
            | ok ev =>
              rw [hf] at hp
              have hp2 : parseLoop rs2 (startRec t o) (acc ++ [ev]) =
                  Except.ok evs := hp
              obtain ⟨tail, hmm, hev⟩ := ih (rs2.dropWhile notMarker)
                (startRec t o) (acc ++ [ev]) evs hlen2
                (by rw [hdw]; exact hp2)
              refine ⟨ev :: tail, ?_, by simpa using hev⟩
              rw [List.mapM_cons]
              have hfc : finalizeChunk (startRec t o, rs2.takeWhile notMarker) =
                  Except.ok ev := by
                rw [htw]
                simpa [finalizeChunk, chunkRec] using hf
              rw [hfc, hmm]
              rfl
          · -- at least one attribute line before the next marker or the end
            have hfinb : needFin rs2 = false := by
              cases h2 : needFin rs2
              · rfl
              · exact absurd h2 hfin
            rw [if_neg hfin] at hp
            have hsplit : rs2 = rs2.takeWhile notMarker ++
                rs2.dropWhile notMarker :=
              (List.takeWhile_append_dropWhile notMarker rs2).symm
            have htne : rs2.takeWhile notMarker ≠ [] := by
              cases rs2 with
              | nil => simp [needFin_nil] at hfinb
              | cons x xs =>
                have hx : x ≠ markerChars := by
                  by_cases hxm : x = markerChars
                  · simp [needFin_cons, hxm] at hfinb
                  · exact hxm
                simp [List.takeWhile, notMarker, hx]
            rw [hsplit, parseLoop_attr_run (rs2.takeWhile notMarker)
              (rs2.dropWhile notMarker) (startRec t o) acc
              (takeWhile_all_notMarker rs2) htne (needFin_dropWhile rs2)] at hp
            cases hf : finalizeRec
                ((rs2.takeWhile notMarker).foldl addAttrLine (startRec t o)) with
            | error e =>
              rw [hf] at hp
              have hcontra : (Except.error e : Except PErr (List Rec)) =
                  Except.ok evs := hp
              exact absurd hcontra (by simp)
            | ok ev =>
              rw [hf] at hp
              have hp2 : parseLoop (rs2.dropWhile notMarker)
                  ((rs2.takeWhile notMarker).foldl addAttrLine (startRec t o))
                  (acc ++ [ev]) = Except.ok evs := hp
              rw [parseLoop_cur_irrelevant (rs2.dropWhile notMarker)
                ((rs2.takeWhile notMarker).foldl addAttrLine (startRec t o))
                (startRec t o) (acc ++ [ev]) (needFin_dropWhile rs2)] at hp2
              obtain ⟨tail, hmm, hev⟩ := ih (rs2.dropWhile notMarker)
                (startRec t o) (acc ++ [ev]) evs hlen2 hp2
              refine ⟨ev :: tail, ?_, by simpa using hev⟩
              rw [List.mapM_cons]
              have hfc : finalizeChunk (startRec t o, rs2.takeWhile notMarker) =
                  Except.ok ev := by
                simpa [finalizeChunk, chunkRec] using hf
              rw [hfc, hmm]
              rfl
      · -- headerless leading chunk
        rw [splitChunksAux_nonmarker n cur l rs hl]
        have hsplit : l :: rs = (l :: rs.takeWhile notMarker) ++
            rs.dropWhile notMarker := by
          simp [List.takeWhile_append_dropWhile]
        have hattrs : ∀ a ∈ l :: rs.takeWhile notMarker, a ≠ markerChars := by
          intro a ha
          rcases List.mem_cons.mp ha with h | h
          · rw [h]; exact hl
          · exact takeWhile_all_notMarker rs a h
        rw [hsplit, parseLoop_attr_run (l :: rs.takeWhile notMarker)
          (rs.dropWhile notMarker) cur acc hattrs (by simp)
          (needFin_dropWhile rs)] at hp
        have hlen2 : (rs.dropWhile notMarker).length ≤ n := by
          have hdw : (rs.dropWhile notMarker).length ≤ rs.length :=
            List.Sublist.length_le (List.dropWhile_sublist notMarker)
          simp at hlen
          omega
        cases hf : finalizeRec
            ((l :: rs.takeWhile notMarker).foldl addAttrLine cur) with
        | error e =>
          rw [hf] at hp
          have hcontra : (Except.error e : Except PErr (List Rec)) =
              Except.ok evs := hp
          exact absurd hcontra (by simp)
        | ok ev =>
          rw [hf] at hp
          have hp2 : parseLoop (rs.dropWhile notMarker)
              ((l :: rs.takeWhile notMarker).foldl addAttrLine cur)
              (acc ++ [ev]) = Except.ok evs := hp
          rw [parseLoop_cur_irrelevant (rs.dropWhile notMarker)
            ((l :: rs.takeWhile notMarker).foldl addAttrLine cur) cur
            (acc ++ [ev]) (needFin_dropWhile rs)] at hp2
          obtain ⟨tail, hmm, hev⟩ := ih (rs.dropWhile notMarker) cur
            (acc ++ [ev]) evs hlen2 hp2
          refine ⟨ev :: tail, ?_, by simpa using hev⟩
          rw [List.mapM_cons]
          have hfc : finalizeChunk (cur, l :: rs.takeWhile notMarker) =
              Except.ok ev := by
            simpa [finalizeChunk, chunkRec] using hf
          rw [hfc, hmm]
          rfl

/-- A successful parse finalizes exactly the scanner's record chunks, in
order. -/
theorem parseLines_eq_chunks (lines : List (List Char)) (evs : List Rec)
    (h : parseLines lines = Except.ok evs) :
    (recordChunks lines).mapM finalizeChunk = Except.ok evs := by
  obtain ⟨tail, hmm, hev⟩ :=
    parseLoop_chunks lines.length lines [] [] evs le_rfl h
  rw [recordChunks, hmm, hev]
  simp

theorem chunkBad_finalize_error (c : Chunk) (h : chunkBad c = true) :
    ∃ e, finalizeChunk c = Except.error e := by
  show ∃ e, finalizeRec (chunkRec c) = Except.error e
  unfold chunkBad at h
  unfold finalizeRec
  cases hts : lookupV (chunkRec c) tsKey with
  | none => exact ⟨PErr.keyError tsKey, rfl⟩
  | some v =>
    cases v with
    | vlist l => exact ⟨PErr.typeError, rfl⟩
    | vint n => exact ⟨PErr.typeError, rfl⟩
    | str s =>
      dsimp only
      cases hpt : parseTimestamp s.data with
      | none => exact ⟨PErr.valueError, rfl⟩
      | some tμ =>
        rw [hts] at h
        dsimp only at h
        rw [hpt] at h
        simp only [Option.isNone_some, Bool.false_or] at h
        cases hrv : lookupV (chunkRec c) recvKey with
        | none => exact ⟨PErr.keyError recvKey, rfl⟩
        | some w =>
          rw [hrv] at h
          cases w with
          | vlist l => exact ⟨PErr.typeError, rfl⟩
          | vint n => exact ⟨PErr.typeError, rfl⟩
          | str s2 =>
            dsimp only
            dsimp only at h
            cases hpt2 : parseTimestamp s2.data with
            | none => exact ⟨PErr.valueError, rfl⟩
            | some rμ =>
              rw [hpt2] at h
              simp at h

theorem mapM_ne_ok_of_mem_error {α β : Type} (f : α → Except PErr β) :
    ∀ (l : List α) (x : α), x ∈ l → ∀ e : PErr, f x = Except.error e →
      ∀ res : List β, l.mapM f ≠ Except.ok res := by
  intro l
  induction l with
  | nil => intro x hx; exact absurd hx (List.not_mem_nil x)
  | cons a l ih =>
    intro x hx e hfx res hok
    rw [List.mapM_cons] at hok
    rcases List.mem_cons.mp hx with h | h
    · subst h
      rw [hfx] at hok
      have h2 : (Except.error e : Except PErr (List β)) = Except.ok res := hok
      simp at h2
    · cases hfa : f a with
      | error e2 =>
        rw [hfa] at hok
        have h2 : (Except.error e2 : Except PErr (List β)) = Except.ok res := hok
        simp at h2
      | ok y =>
        rw [hfa] at hok
        cases hml : l.mapM f with
        | error e2 =>
          have hok2 : (do
              let xs ← l.mapM f
              pure (y :: xs) : Except PErr (List β)) = Except.ok res := hok
          rw [hml] at hok2
          have h2 : (Except.error e2 : Except PErr (List β)) =
            Except.ok res := hok2
          simp at h2
        | ok ys => exact ih x h e hfx ys hml

/-- Claim C8: any input in which some record's `timestamp` or `received`
value fails to parse in the fixed format, or which lacks a `received`
attribute at finalization time, makes the whole run fail: the parser returns
an error and no event sequence at all — no events from other, well-formed
records are returned. -/
theorem c8_malformed_record_fatal (lines : List (List Char)) (c : Chunk)
    (hc : c ∈ recordChunks lines) (hbad : chunkBad c = true) :
    ∃ e, parseLines lines = Except.error e := by
  cases hres : parseLines lines with
  | error e => exact ⟨e, rfl⟩
  | ok evs =>
    obtain ⟨e, he⟩ := chunkBad_finalize_error c hbad
    exact absurd (parseLines_eq_chunks lines evs hres)
      (mapM_ne_ok_of_mem_error finalizeChunk (recordChunks lines) c hc e he evs)

/-- Witness for C8: a well-formed record followed by a record whose timestamp
is unparsable; the whole run errors. -/
theorem c8_malformed_record_fatal_witness :
    ((startRec ("garbage").data ("OP").data,
        [("received: 2024-01-01-10:00:00.150000+00:00").data]) ∈
      recordChunks [("AuditV3").data,
        ("2024-01-01-10:00:00.000000+00:00").data, ("SEARCH").data,
        ("received: 2024-01-01-10:00:00.150000+00:00").data,
        ("AuditV3").data, ("garbage").data, ("OP").data,
        ("received: 2024-01-01-10:00:00.150000+00:00").data]) ∧
    chunkBad (startRec ("garbage").data ("OP").data,
      [("received: 2024-01-01-10:00:00.150000+00:00").data]) = true ∧
    ∃ e, parseLines [("AuditV3").data,
        ("2024-01-01-10:00:00.000000+00:00").data, ("SEARCH").data,
        ("received: 2024-01-01-10:00:00.150000+00:00").data,
        ("AuditV3").data, ("garbage").data, ("OP").data,
        ("received: 2024-01-01-10:00:00.150000+00:00").data] =
      Except.error e :=
  ⟨by decide, by decide,
    c8_malformed_record_fatal [("AuditV3").data,
        ("2024-01-01-10:00:00.000000+00:00").data, ("SEARCH").data,
        ("received: 2024-01-01-10:00:00.150000+00:00").data,
        ("AuditV3").data, ("garbage").data, ("OP").data,
        ("received: 2024-01-01-10:00:00.150000+00:00").data]
      (startRec ("garbage").data ("OP").data,
        [("received: 2024-01-01-10:00:00.150000+00:00").data])
      (by decide) (by decide)⟩

theorem lookupV_insertAttr_self : ∀ (r : Rec) (k : String) (v : String),
    lookupV (insertAttr r k v) k =
      some (match lookupV r k with
            | none => Value.str v
            | some old => pushValue old v) := by
  intro r k v
  induction r with
  | nil => simp [insertAttr, lookupV]
  | cons p rest ih =>
    obtain ⟨k1, v1⟩ := p
    by_cases hk : k1 = k
    · subst hk
      simp [insertAttr, lookupV]
    · simp [insertAttr, lookupV, hk, ih]

theorem lookupV_insertAttr_other : ∀ (r : Rec) (k v : String) (k2 : String),
    k2 ≠ k → lookupV (insertAttr r k v) k2 = lookupV r k2 := by
  intro r k v k2 hne
  have hne2 : ¬ k = k2 := fun h => hne h.symm
  induction r with
  | nil => simp [insertAttr, lookupV, hne2]
  | cons p rest ih =>
    obtain ⟨k1, v1⟩ := p
    by_cases hk : k1 = k
    · subst hk
      simp [insertAttr, lookupV, hne2]
    · simp [insertAttr, lookupV, hk, ih]

theorem lookupV_setKey_self : ∀ (r : Rec) (k : String) (v : Value),
    lookupV (setKey r k v) k = some v := by
  intro r k v
  induction r with
  | nil => simp [setKey, lookupV]
  | cons p rest ih =>
    obtain ⟨k1, v1⟩ := p
    by_cases hk : k1 = k
    · subst hk
      simp [setKey, lookupV]
    · simp [setKey, lookupV, hk, ih]

theorem lookupV_setKey_other : ∀ (r : Rec) (k : String) (v : Value)
    (k2 : String), k2 ≠ k → lookupV (setKey r k v) k2 = lookupV r k2 := by
  intro r k v k2 hne
  have hne2 : ¬ k = k2 := fun h => hne h.symm
  induction r with
  | nil => simp [setKey, lookupV, hne2]
  | cons p rest ih =>
    obtain ⟨k1, v1⟩ := p
    by_cases hk : k1 = k
    · subst hk
      simp [setKey, lookupV, hne2]
    · simp [setKey, lookupV, hk, ih]

theorem attrValuesOf_cons (l : List Char) (ls : List (List Char))
    (k : String) :
    attrValuesOf (l :: ls) k =
      (match splitFirst l with
       | some (kcs, vcs) =>
         if String.mk kcs = k then String.mk vcs :: attrValuesOf ls k
         else attrValuesOf ls k
       | none => attrValuesOf ls k) := by
  unfold attrValuesOf
  rw [List.filterMap_cons]
  cases hsf : splitFirst l with
  | none => simp
  | some p =>
    obtain ⟨kcs, vcs⟩ := p
    by_cases hk : String.mk kcs = k
    · simp [hk]
    · simp [hk]

theorem lookupV_foldl_addAttrLine :
    ∀ (ls : List (List Char)) (r : Rec) (k : String),
      lookupV (ls.foldl addAttrLine r) k =
        combineV (lookupV r k) (attrValuesOf ls k) := by
  intro ls
  induction ls with
  | nil => intro r k; simp [attrValuesOf, combineV]
  | cons l ls ih =>
    intro r k
    rw [List.foldl_cons, attrValuesOf_cons]
    cases hsf : splitFirst l with
    | none => simp [addAttrLine, hsf, ih]
    | some p =>
      obtain ⟨kcs, vcs⟩ := p
      by_cases hk : String.mk kcs = k
      · subst hk
        simp only [addAttrLine, hsf, if_pos rfl]
        rw [ih]
        rw [lookupV_insertAttr_self]
        cases hlk : lookupV r (String.mk kcs) with
        | none => simp [combineV]
        | some old => simp [combineV]
      · simp only [addAttrLine, hsf, if_neg hk]
        rw [ih, lookupV_insertAttr_other r (String.mk kcs) (String.mk vcs) k
          (fun h => hk h.symm)]

theorem combineV_vlist : ∀ (vs : List String) (l : List Value),
    combineV (some (Value.vlist l)) vs =
      some (Value.vlist (l ++ vs.map Value.str)) := by
  intro vs
  induction vs with
  | nil => intro l; simp [combineV]
  | cons v vs ih =>
    intro l
    rw [combineV, pushValue, ih]
    simp

theorem combineV_str (u : String) : ∀ vs : List String,
    combineV (some (Value.str u)) vs =
      (if vs = [] then some (Value.str u)
       else some (Value.vlist (Value.str u :: vs.map Value.str))) := by
  intro vs
  cases vs with
  | nil => simp [combineV]
  | cons v vs =>
    simp [combineV, pushValue, combineV_vlist]

theorem combineV_none : ∀ vs : List String,
    combineV none vs =
      (match vs with
       | [] => none
       | [v] => some (Value.str v)
       | vs => some (Value.vlist (vs.map Value.str))) := by
  intro vs
  cases vs with
  | nil => simp [combineV]
  | cons v vs =>
    rw [combineV, combineV_str]
    cases vs with
    | nil => simp
    | cons v2 vs2 => simp

theorem finalizeRec_ok_shape (r : Rec) (ev : Rec)
    (h : finalizeRec r = Except.ok ev) :
    ∃ n : Int, ev = setKey r exeKey (Value.vint n) := by
  unfold finalizeRec at h
  cases hts : lookupV r tsKey with
  | none => rw [hts] at h; exact absurd h (by simp)
  | some v =>
    rw [hts] at h
    cases v with
    | vlist l => exact absurd h (by simp)
    | vint n => exact absurd h (by simp)
    | str s =>
      dsimp only at h
      cases hpt : parseTimestamp s.data with
      | none => rw [hpt] at h; exact absurd h (by simp)
      | some tμ =>
        rw [hpt] at h
        cases hrv : lookupV r recvKey with
        | none => rw [hrv] at h; exact absurd h (by simp)
        | some w =>
          rw [hrv] at h
          cases w with
          | vlist l => exact absurd h (by simp)
          | vint n => exact absurd h (by simp)
          | str s2 =>
            dsimp only at h
            cases hpt2 : parseTimestamp s2.data with
            | none => rw [hpt2] at h; exact absurd h (by simp)
            | some rμ =>
              rw [hpt2] at h
              simp only [Except.ok.injEq] at h
              exact ⟨(execMsOf (rμ - tμ) : Int), h.symm⟩

theorem mapM_ok_forall2 {α β : Type} (f : α → Except PErr β) :
    ∀ (l : List α) (res : List β), l.mapM f = Except.ok res →
      List.Forall₂ (fun a b => f a = Except.ok b) l res := by
  intro l
  induction l with
  | nil =>
    intro res h
    have h2 : (Except.ok [] : Except PErr (List β)) = Except.ok res := h
    simp only [Except.ok.injEq] at h2
    rw [← h2]
    exact List.Forall₂.nil
  | cons a l ih =>
    intro res h
    rw [List.mapM_cons] at h
    cases hfa : f a with
    | error e =>
      rw [hfa] at h
      have h2 : (Except.error e : Except PErr (List β)) = Except.ok res := h
      simp at h2
    | ok y =>
      rw [hfa] at h
      cases hml : l.mapM f with
      | error e =>
        have h2 : (do
            let xs ← l.mapM f
            pure (y :: xs) : Except PErr (List β)) = Except.ok res := h
        rw [hml] at h2
        have h3 : (Except.error e : Except PErr (List β)) = Except.ok res := h2
        simp at h3
      | ok ys =>
        have h2 : (do
            let xs ← l.mapM f
            pure (y :: xs) : Except PErr (List β)) = Except.ok res := h
        rw [hml] at h2
        have h3 : (Except.ok (y :: ys) : Except PErr (List β)) =
          Except.ok res := h2
        simp only [Except.ok.injEq] at h3
        rw [← h3]
        exact List.Forall₂.cons hfa (ih ys hml)

theorem mem_keys_insertAttr : ∀ (r : Rec) (k v : String) (x : String),
    x ∈ (insertAttr r k v).map Prod.fst →
    x ∈ r.map Prod.fst ∨ x = k := by
  intro r k v x
  induction r with
  | nil => simp [insertAttr]
  | cons p rest ih =>
    obtain ⟨k1, v1⟩ := p
    by_cases hk : k1 = k
    · subst hk
      simp [insertAttr]
      tauto
    · simp only [insertAttr, if_neg hk, List.map_cons, List.mem_cons]
      intro hx
      rcases hx with hx | hx
      · exact Or.inl (Or.inl hx)
      · rcases ih hx with h2 | h2
        · exact Or.inl (Or.inr h2)
        · exact Or.inr h2

theorem nodup_insertAttr : ∀ (r : Rec) (k v : String),
    (r.map Prod.fst).Nodup → ((insertAttr r k v).map Prod.fst).Nodup := by
  intro r k v
  induction r with
  | nil => intro _; simp [insertAttr]
  | cons p rest ih =>
    obtain ⟨k1, v1⟩ := p
    intro hnd
    simp only [List.map_cons, List.nodup_cons] at hnd
    by_cases hk : k1 = k
    · subst hk
      have heq : insertAttr ((k1, v1) :: rest) k1 v =
          (k1, pushValue v1 v) :: rest := by simp [insertAttr]
      rw [heq]
      simp only [List.map_cons, List.nodup_cons]
      exact hnd
    · simp only [insertAttr, if_neg hk, List.map_cons, List.nodup_cons]
      refine ⟨fun hx => ?_, ih hnd.2⟩
      rcases mem_keys_insertAttr rest k v k1 hx with h2 | h2
      · exact hnd.1 h2
      · exact hk h2

theorem mem_keys_setKey : ∀ (r : Rec) (k : String) (v : Value) (x : String),
    x ∈ (setKey r k v).map Prod.fst → x ∈ r.map Prod.fst ∨ x = k := by
  intro r k v x
  induction r with
  | nil => simp [setKey]
  | cons p rest ih =>
    obtain ⟨k1, v1⟩ := p
    by_cases hk : k1 = k
    · subst hk
      simp [setKey]
      tauto
    · simp only [setKey, if_neg hk, List.map_cons, List.mem_cons]
      intro hx
      rcases hx with hx | hx
      · exact Or.inl (Or.inl hx)
      · rcases ih hx with h2 | h2
        · exact Or.inl (Or.inr h2)
        · exact Or.inr h2

theorem nodup_setKey : ∀ (r : Rec) (k : String) (v : Value),
    (r.map Prod.fst).Nodup → ((setKey r k v).map Prod.fst).Nodup := by
  intro r k v
  induction r with
  | nil => intro _; simp [setKey]
  | cons p rest ih =>
    obtain ⟨k1, v1⟩ := p
    intro hnd
    simp only [List.map_cons, List.nodup_cons] at hnd
    by_cases hk : k1 = k
    · subst hk
      have heq : setKey ((k1, v1) :: rest) k1 v = (k1, v) :: rest := by
        simp [setKey]
      rw [heq]
      simp only [List.map_cons, List.nodup_cons]
      exact hnd
    · simp only [setKey, if_neg hk, List.map_cons, List.nodup_cons]
      refine ⟨fun hx => ?_, ih hnd.2⟩
      rcases mem_keys_setKey rest k v k1 hx with h2 | h2
      · exact hnd.1 h2
      · exact hk h2

theorem nodup_addAttrLine (r : Rec) (l : List Char)
    (h : (r.map Prod.fst).Nodup) :
    ((addAttrLine r l).map Prod.fst).Nodup := by
  unfold addAttrLine
  cases splitFirst l with
  | none => exact h
  | some p => exact nodup_insertAttr r (String.mk p.1) (String.mk p.2) h

theorem nodup_foldl_addAttrLine :
    ∀ (ls : List (List Char)) (r : Rec), (r.map Prod.fst).Nodup →
      ((ls.foldl addAttrLine r).map Prod.fst).Nodup := by
  intro ls
  induction ls with
  | nil => intro r h; exact h
  | cons l ls ih =>
    intro r h
    rw [List.foldl_cons]
    exact ih (addAttrLine r l) (nodup_addAttrLine r l h)

theorem splitChunksAux_init :
    ∀ (f : Nat) (cur : Rec) (ls : List (List Char)),
      (cur = [] ∨ ∃ t o, cur = startRec t o) →
      ∀ c ∈ splitChunksAux f cur ls,
        (c.1 = ([] : Rec) ∨ ∃ t o, c.1 = startRec t o) := by
  intro f
  induction f with
  | zero =>
    intro cur ls _ c hc
    rw [splitChunksAux] at hc
    exact absurd hc (List.not_mem_nil c)
  | succ n ih =>
    intro cur ls hcur c hc
    match ls with
    | [] =>
      rw [splitChunksAux_nil] at hc
      exact absurd hc (List.not_mem_nil c)
    | l :: rs =>
      by_cases hl : l = markerChars
      · subst hl
        match rs with
        | [] =>
          rw [splitChunksAux.eq_def] at hc
          simp at hc
        | [t] =>
          rw [splitChunksAux.eq_def] at hc
          simp at hc
        | t :: o :: rs2 =>
          rw [splitChunksAux_marker] at hc
          rcases List.mem_cons.mp hc with h2 | h2
          · rw [h2]
            exact Or.inr ⟨t, o, rfl⟩
          · exact ih (startRec t o) (rs2.dropWhile notMarker)
              (Or.inr ⟨t, o, rfl⟩) c h2
      · rw [splitChunksAux_nonmarker n cur l rs hl] at hc
        rcases List.mem_cons.mp hc with h2 | h2
        · rw [h2]
          exact hcur
        · exact ih cur (rs.dropWhile notMarker) hcur c h2

theorem forall₂_imp_mem {α β : Type} {R P : α → β → Prop} :
    ∀ {l1 : List α} {l2 : List β}, List.Forall₂ R l1 l2 →
      (∀ a b, a ∈ l1 → R a b → P a b) → List.Forall₂ P l1 l2 := by
  intro l1 l2 h
  induction h with
  | nil => intro _; exact List.Forall₂.nil
  | cons hab htl ih =>
    intro himp
    refine List.Forall₂.cons
      (himp _ _ (List.mem_cons_self _ _) hab) (ih ?_)
    intro a b ha hr
    exact himp a b (List.mem_cons_of_mem _ ha) hr

theorem forall₂_mem_right {α β : Type} {R : α → β → Prop} :
    ∀ {l1 : List α} {l2 : List β}, List.Forall₂ R l1 l2 →
      ∀ b ∈ l2, ∃ a ∈ l1, R a b := by
  intro l1 l2 h
  induction h with
  | nil => intro b hb; exact absurd hb (List.not_mem_nil b)
  | cons hab htl ih =>
    intro b hb
    rcases List.mem_cons.mp hb with h2 | h2
    · subst h2
      exact ⟨_, List.mem_cons_self _ _, hab⟩
    · obtain ⟨a, ha, har⟩ := ih b h2
      exact ⟨a, List.mem_cons_of_mem _ ha, har⟩

/-- Claim C2, amended: the single-string / ordered-list accumulation rule
holds for every attribute key other than the parser-populated keys
`timestamp`, `operation_type` and `ExecutionTime` (which attribute lines
collide with): for every record parsed, a non-reserved key occurring exactly
once is stored as the single string value, a recurring one as the ordered
list of all its values in encounter order, an absent one is absent — and
every parsed event's key set has no duplicates. -/
theorem c2_attribute_accumulation (lines : List (List Char)) (evs : List Rec)
    (h : parseLines lines = Except.ok evs) :
    (∀ ev ∈ evs, (ev.map Prod.fst).Nodup) ∧
    List.Forall₂ (fun (c : Chunk) (ev : Rec) => ∀ k : String,
        k ∉ reservedKeys →
        ((attrValuesOf c.2 k = [] → lookupV ev k = none) ∧
         (∀ v, attrValuesOf c.2 k = [v] →
            lookupV ev k = some (Value.str v)) ∧
         (∀ vs, attrValuesOf c.2 k = vs → 2 ≤ vs.length →
            lookupV ev k = some (Value.vlist (vs.map Value.str)))))
      (recordChunks lines) evs := by
  have hmm := parseLines_eq_chunks lines evs h
  have hf2 := mapM_ok_forall2 finalizeChunk (recordChunks lines) evs hmm
  have hinit := splitChunksAux_init lines.length [] lines (Or.inl rfl)
  have hinitnd : ∀ c ∈ recordChunks lines, ((c.1 : Rec).map Prod.fst).Nodup := by
    intro c hc
    rcases hinit c hc with h1 | ⟨t, o, h1⟩
    · rw [h1]; simp
    · rw [h1]; simp [startRec, tsKey, opKey]
  have hinitlk : ∀ c ∈ recordChunks lines, ∀ k : String, k ∉ reservedKeys →
      lookupV c.1 k = none := by
    intro c hc k hk
    rcases hinit c hc with h1 | ⟨t, o, h1⟩
    · rw [h1]; rfl
    · rw [h1]
      have hk1 : tsKey ≠ k := fun he => hk (by rw [← he]; simp [reservedKeys])
      have hk2 : opKey ≠ k := fun he => hk (by rw [← he]; simp [reservedKeys])
      simp [startRec, lookupV, hk1, hk2]
  constructor
  · intro ev hev
    obtain ⟨c, hc, hfc⟩ := forall₂_mem_right hf2 ev hev
    have hfr : finalizeRec (chunkRec c) = Except.ok ev := hfc
    obtain ⟨n, hshape⟩ := finalizeRec_ok_shape (chunkRec c) ev hfr
    rw [hshape]
    exact nodup_setKey (chunkRec c) exeKey (Value.vint n)
      (nodup_foldl_addAttrLine c.2 c.1 (hinitnd c hc))
  · refine forall₂_imp_mem hf2 ?_
    intro c ev hc hfc k hk
    have hfr : finalizeRec (chunkRec c) = Except.ok ev := hfc
    obtain ⟨n, hshape⟩ := finalizeRec_ok_shape (chunkRec c) ev hfr
    have hkexe : k ≠ exeKey := fun he => hk (by rw [he]; simp [reservedKeys])
    have hlu : lookupV ev k = lookupV (chunkRec c) k := by
      rw [hshape]
      exact lookupV_setKey_other (chunkRec c) exeKey (Value.vint n) k hkexe
    have hfold : lookupV (chunkRec c) k =
        combineV none (attrValuesOf c.2 k) := by
      show lookupV (c.2.foldl addAttrLine c.1) k = _
      rw [lookupV_foldl_addAttrLine c.2 c.1 k, hinitlk c hc k hk]
    refine ⟨fun hnil => ?_, fun v hone => ?_, fun vs hvs hlen => ?_⟩
    · rw [hlu, hfold, hnil, combineV_none]
    · rw [hlu, hfold, hone, combineV_none]
    · rw [hlu, hfold, hvs, combineV_none]
      match vs, hlen with
      | v1 :: v2 :: vs2, _ => rfl

/-- Witness for C2 at a concrete input: one record with a repeated `member`
attribute and a single `cn` attribute. -/
theorem c2_attribute_accumulation_witness :
    parseLines [("AuditV3").data, ("2024-01-01-10:00:00.000000+00:00").data,
        ("SEARCH").data, ("member: X1").data, ("member: X2").data,
        ("cn: alice").data,
        ("received: 2024-01-01-10:00:00.150000+00:00").data] =
      Except.ok [[(tsKey, Value.str ("2024-01-01-10:00:00.000000+00:00")),
        (opKey, Value.str ("SEARCH")),
        (("member"), Value.vlist [Value.str ("X1"), Value.str ("X2")]),
        (("cn"), Value.str ("alice")),
        (recvKey, Value.str ("2024-01-01-10:00:00.150000+00:00")),
        (exeKey, Value.vint 150)]] ∧
    ((∀ ev ∈ [[(tsKey, Value.str ("2024-01-01-10:00:00.000000+00:00")),
        (opKey, Value.str ("SEARCH")),
        (("member"), Value.vlist [Value.str ("X1"), Value.str ("X2")]),
        (("cn"), Value.str ("alice")),
        (recvKey, Value.str ("2024-01-01-10:00:00.150000+00:00")),
        (exeKey, Value.vint 150)]], (ev.map Prod.fst).Nodup) ∧
      List.Forall₂ (fun (c : Chunk) (ev : Rec) => ∀ k : String,
          k ∉ reservedKeys →
          ((attrValuesOf c.2 k = [] → lookupV ev k = none) ∧
           (∀ v, attrValuesOf c.2 k = [v] →
              lookupV ev k = some (Value.str v)) ∧
           (∀ vs, attrValuesOf c.2 k = vs → 2 ≤ vs.length →
              lookupV ev k = some (Value.vlist (vs.map Value.str)))))
        (recordChunks [("AuditV3").data,
          ("2024-01-01-10:00:00.000000+00:00").data,
          ("SEARCH").data, ("member: X1").data, ("member: X2").data,
          ("cn: alice").data,
          ("received: 2024-01-01-10:00:00.150000+00:00").data])
        [[(tsKey, Value.str ("2024-01-01-10:00:00.000000+00:00")),
          (opKey, Value.str ("SEARCH")),
          (("member"), Value.vlist [Value.str ("X1"), Value.str ("X2")]),
          (("cn"), Value.str ("alice")),
          (recvKey, Value.str ("2024-01-01-10:00:00.150000+00:00")),
          (exeKey, Value.vint 150)]]) :=
  ⟨by decide, c2_attribute_accumulation _ _ (by decide)⟩

theorem getExecI_of_hasIntExec (ev : Rec) (h : hasIntExec ev = true) :
    getExecI ev = Except.ok (exD ev) := by
  unfold hasIntExec at h
  unfold getExecI exD
  cases hlk : lookupV ev exeKey with
  | none => rw [hlk] at h; simp at h
  | some v =>
    rw [hlk] at h
    cases v with
    | str s => simp at h
    | vlist l => simp at h
    | vint n => rfl

theorem mapM_getExecI_ok : ∀ evs : List Rec, wfExec evs →
    evs.mapM getExecI = Except.ok (evs.map exD) := by
  intro evs
  induction evs with
  | nil => intro _; rfl
  | cons ev rest ih =>
    intro h
    rw [List.mapM_cons,
      getExecI_of_hasIntExec ev (h ev (List.mem_cons_self ev rest)),
      ih (fun x hx => h x (List.mem_cons_of_mem ev hx))]
    rfl

theorem filter_orderedInsert_exD (x : Rec) (v : Int) : ∀ l : List Rec,
    (List.orderedInsert descExec x l).filter (fun e => decide (exD e = v)) =
      (if exD x = v then
        x :: l.filter (fun e => decide (exD e = v))
      else l.filter (fun e => decide (exD e = v))) := by
  intro l
  induction l with
  | nil =>
    by_cases hx : exD x = v
    · simp [List.orderedInsert, List.filter, hx]
    · simp [List.orderedInsert, List.filter, hx]
  | cons y l ih =>
    by_cases hd : descExec x y
    · by_cases hx : exD x = v <;>
        simp [List.orderedInsert, hd, List.filter_cons, hx]
    · by_cases hx : exD x = v
      · have hy : exD y ≠ v := by
          intro he
          exact hd (by rw [descExec, he, hx])
        simp [List.orderedInsert, hd, List.filter_cons, hy, ih, hx]
      · simp [List.orderedInsert, hd, List.filter_cons, ih, hx]

theorem filter_insertionSort_exD (v : Int) : ∀ l : List Rec,
    (List.insertionSort descExec l).filter (fun e => decide (exD e = v)) =
      l.filter (fun e => decide (exD e = v)) := by
  intro l
  induction l with
  | nil => rfl
  | cons x l ih =>
    rw [List.insertionSort, filter_orderedInsert_exD, ih]
    by_cases hx : exD x = v <;> simp [List.filter_cons, hx]

theorem filter_take_extends {α : Type} (p : α → Bool) :
    ∀ (n : Nat) (l : List α), ∃ t, (l.take n).filter p ++ t = l.filter p := by
  intro n
  induction n with
  | zero => intro l; exact ⟨l.filter p, by simp⟩
  | succ m ih =>
    intro l
    cases l with
    | nil => exact ⟨[], by simp⟩
    | cons x l =>
      obtain ⟨t, ht⟩ := ih l
      by_cases hx : p x = true
      · exact ⟨t, by simp [List.filter_cons, hx, ht]⟩
      · exact ⟨t, by simp [List.filter_cons, hx, ht]⟩

/-- Claim C4: the top-N-by-latency result is `ExecutionTime`-non-increasing,
events with equal `ExecutionTime` keep their original encounter order (the
per-value filtered subsequence of the result is an initial segment of that of
the input), the result together with some remainder is a permutation of the
full event set, and requesting `n` at or above the event count returns all
events in sorted order. -/
theorem c4_top_n (evs : List Rec) (n : Nat) (h : wfExec evs) :
    get_events_with_highest_execution_times evs n =
      Except.ok ((List.insertionSort descExec evs).take n) ∧
    List.Sorted descExec ((List.insertionSort descExec evs).take n) ∧
    (∀ v : Int, ∃ t, ((List.insertionSort descExec evs).take n).filter
        (fun e => decide (exD e = v)) ++ t =
      evs.filter (fun e => decide (exD e = v))) ∧
    (∃ rest, List.Perm
      ((List.insertionSort descExec evs).take n ++ rest) evs) ∧
    (evs.length ≤ n →
      (List.insertionSort descExec evs).take n =
        List.insertionSort descExec evs) := by
  refine ⟨?_, ?_, ?_, ?_, ?_⟩
  · unfold get_events_with_highest_execution_times
    rw [mapM_getExecI_ok evs h]
  · exact List.Pairwise.sublist (List.take_sublist n _)
      (List.sorted_insertionSort descExec evs)
  · intro v
    obtain ⟨t, ht⟩ := filter_take_extends (fun e => decide (exD e = v)) n
      (List.insertionSort descExec evs)
    exact ⟨t, by rw [ht, filter_insertionSort_exD]⟩
  · refine ⟨(List.insertionSort descExec evs).drop n, ?_⟩
    rw [List.take_append_drop]
    exact List.perm_insertionSort descExec evs
  · intro hn
    refine List.take_of_length_le ?_
    rw [(List.perm_insertionSort descExec evs).length_eq]
    exact hn

/-- Witness for C4 at a concrete input. -/
theorem c4_top_n_witness :
    wfExec [[(opKey, Value.str ("A")), (exeKey, Value.vint 1)],
        [(opKey, Value.str ("B")), (exeKey, Value.vint 5)]] ∧
    (get_events_with_highest_execution_times
        [[(opKey, Value.str ("A")), (exeKey, Value.vint 1)],
         [(opKey, Value.str ("B")), (exeKey, Value.vint 5)]] 1 =
      Except.ok ((List.insertionSort descExec
        [[(opKey, Value.str ("A")), (exeKey, Value.vint 1)],
         [(opKey, Value.str ("B")), (exeKey, Value.vint 5)]]).take 1) ∧
    List.Sorted descExec ((List.insertionSort descExec
        [[(opKey, Value.str ("A")), (exeKey, Value.vint 1)],
         [(opKey, Value.str ("B")), (exeKey, Value.vint 5)]]).take 1) ∧
    (∀ v : Int, ∃ t, ((List.insertionSort descExec
        [[(opKey, Value.str ("A")), (exeKey, Value.vint 1)],
         [(opKey, Value.str ("B")), (exeKey, Value.vint 5)]]).take 1).filter
        (fun e => decide (exD e = v)) ++ t =
      ([[(opKey, Value.str ("A")), (exeKey, Value.vint 1)],
        [(opKey, Value.str ("B")), (exeKey, Value.vint 5)]] : List Rec).filter
        (fun e => decide (exD e = v))) ∧
    (∃ rest, List.Perm ((List.insertionSort descExec
        [[(opKey, Value.str ("A")), (exeKey, Value.vint 1)],
         [(opKey, Value.str ("B")), (exeKey, Value.vint 5)]]).take 1 ++ rest)
      [[(opKey, Value.str ("A")), (exeKey, Value.vint 1)],
       [(opKey, Value.str ("B")), (exeKey, Value.vint 5)]]) ∧
    (([[(opKey, Value.str ("A")), (exeKey, Value.vint 1)],
       [(opKey, Value.str ("B")), (exeKey, Value.vint 5)]] : List Rec).length ≤ 1 →
      (List.insertionSort descExec
        [[(opKey, Value.str ("A")), (exeKey, Value.vint 1)],
         [(opKey, Value.str ("B")), (exeKey, Value.vint 5)]]).take 1 =
        List.insertionSort descExec
          [[(opKey, Value.str ("A")), (exeKey, Value.vint 1)],
           [(opKey, Value.str ("B")), (exeKey, Value.vint 5)]])) :=
  ⟨by decide,
    c4_top_n [[(opKey, Value.str ("A")), (exeKey, Value.vint 1)],
      [(opKey, Value.str ("B")), (exeKey, Value.vint 5)]] 1 (by decide)⟩

theorem getOpV_of_hasHashableOp (ev : Rec) (h : hasHashableOp ev = true) :
    getOpV ev = Except.ok (opD ev) := by
  unfold hasHashableOp at h
  unfold getOpV opD
  cases hlk : lookupV ev opKey with
  | none => rw [hlk] at h; simp at h
  | some v =>
    rw [hlk] at h
    cases v with
    | str s => rfl
    | vlist l => simp at h
    | vint n => rfl

theorem hasKeyD_iff_lookupD {α β : Type} [DecidableEq α] :
    ∀ (d : List (α × β)) (k : α),
      hasKeyD d k = true ↔ (lookupD d k).isSome = true := by
  intro d k
  induction d with
  | nil => simp [hasKeyD, lookupD]
  | cons p rest ih =>
    obtain ⟨k1, v1⟩ := p
    by_cases hk : k1 = k
    · simp [hasKeyD, lookupD, hk]
    · simp [hasKeyD, lookupD, hk, ih]

theorem lookupD_append_single {α β : Type} [DecidableEq α] :
    ∀ (d : List (α × β)) (k : α) (x : β) (k2 : α),
      lookupD (d ++ [(k, x)]) k2 =
        match lookupD d k2 with
        | some y => some y
        | none => if k = k2 then some x else none := by
  intro d k x k2
  induction d with
  | nil => simp [lookupD]
  | cons p rest ih =>
    obtain ⟨k1, v1⟩ := p
    by_cases hk : k1 = k2
    · simp [lookupD, hk]
    · simp [lookupD, hk, ih]

theorem bumpAtKey_lookup_other {α : Type} [DecidableEq α] :
    ∀ (d : List (α × Nat)) (k k2 : α), k2 ≠ k →
      lookupD (bumpAtKey d k) k2 = lookupD d k2 := by
  intro d k k2 hne
  induction d with
  | nil => simp [bumpAtKey, lookupD]
  | cons p rest ih =>
    obtain ⟨k1, v1⟩ := p
    by_cases hk : k1 = k
    · subst hk
      have h2 : ¬ k1 = k2 := fun h => hne h.symm
      simp [bumpAtKey, lookupD, h2]
    · simp only [bumpAtKey, if_neg hk]
      by_cases h2 : k1 = k2
      · simp [lookupD, h2]
      · simp [lookupD, h2, ih]

theorem bumpAtKey_lookup_self {α : Type} [DecidableEq α] :
    ∀ (d : List (α × Nat)) (k : α),
      lookupD (bumpAtKey d k) k = (lookupD d k).map (· + 1) := by
  intro d k
  induction d with
  | nil => simp [bumpAtKey, lookupD]
  | cons p rest ih =>
    obtain ⟨k1, v1⟩ := p
    by_cases hk : k1 = k
    · subst hk
      simp [bumpAtKey, lookupD]
    · simp [bumpAtKey, lookupD, hk, ih]

theorem bumpAtKey_sum {α : Type} [DecidableEq α] :
    ∀ (d : List (α × Nat)) (k : α),
      ((bumpAtKey d k).map Prod.snd).sum =
        (d.map Prod.snd).sum + (if hasKeyD d k then 1 else 0) := by
  intro d k
  induction d with
  | nil => simp [bumpAtKey, hasKeyD]
  | cons p rest ih =>
    obtain ⟨k1, v1⟩ := p
    by_cases hk : k1 = k
    · subst hk
      simp [bumpAtKey, hasKeyD]
      omega
    · simp [bumpAtKey, hasKeyD, hk, ih]
      by_cases h2 : hasKeyD rest k = true
      · simp [h2]
        omega
      · simp [h2]

theorem bumpAtKey_isSome {α : Type} [DecidableEq α] :
    ∀ (d : List (α × Nat)) (k k2 : α),
      (lookupD (bumpAtKey d k) k2).isSome = (lookupD d k2).isSome := by
  intro d k k2
  by_cases hk : k2 = k
  · subst hk
    rw [bumpAtKey_lookup_self]
    cases lookupD d k2 <;> simp
  · rw [bumpAtKey_lookup_other d k k2 hk]

theorem assignBucket_eq (inner : List (Int × Nat)) :
    ∀ (ts : List Int) (e : Int),
      assignBucket inner ts e =
        match leastGE ts e with
        | none => inner
        | some t => bumpAtKey inner t := by
  intro ts
  induction ts with
  | nil => intro e; simp [assignBucket, leastGE, List.find?]
  | cons t ts ih =>
    intro e
    by_cases he : e ≤ t
    · simp [assignBucket, he, leastGE, List.find?]
    · have hf : leastGE (t :: ts) e = leastGE ts e := by
        simp [leastGE, List.find?, he]
      rw [hf]
      simp only [assignBucket, if_neg he]
      rw [ih e]

theorem updAtKey_lookup_other {α β : Type} [DecidableEq α] :
    ∀ (d : List (α × β)) (k : α) (f : β → β) (k2 : α), k2 ≠ k →
      lookupD (updAtKey d k f) k2 = lookupD d k2 := by
  intro d k f k2 hne
  induction d with
  | nil => simp [updAtKey, lookupD]
  | cons p rest ih =>
    obtain ⟨k1, v1⟩ := p
    by_cases hk : k1 = k
    · subst hk
      have h2 : ¬ k1 = k2 := fun h => hne h.symm
      simp [updAtKey, lookupD, h2]
    · simp only [updAtKey, if_neg hk]
      by_cases h2 : k1 = k2
      · simp [lookupD, h2]
      · simp [lookupD, h2, ih]

theorem updAtKey_lookup_self {α β : Type} [DecidableEq α] :
    ∀ (d : List (α × β)) (k : α) (f : β → β),
      lookupD (updAtKey d k f) k = (lookupD d k).map f := by
  intro d k f
  induction d with
  | nil => simp [updAtKey, lookupD]
  | cons p rest ih =>
    obtain ⟨k1, v1⟩ := p
    by_cases hk : k1 = k
    · subst hk
      simp [updAtKey, lookupD]
    · simp [updAtKey, lookupD, hk, ih]

theorem initInner_lookup_aux :
    ∀ (ts : List Int) (acc : List (Int × Nat)) (t : Int),
      lookupD (ts.foldl
        (fun inn u => if hasKeyD inn u then inn else inn ++ [(u, 0)]) acc) t =
        match lookupD acc t with
        | some v => some v
        | none => if t ∈ ts then some 0 else none := by
  intro ts
  induction ts with
  | nil =>
    intro acc t
    rw [List.foldl_nil]
    cases hl : lookupD acc t <;> simp
  | cons u ts ih =>
    intro acc t
    rw [List.foldl_cons, ih]
    by_cases hu : hasKeyD acc u = true
    · rw [if_pos hu]
      cases hl : lookupD acc t with
      | some v => simp
      | none =>
        by_cases ht : t = u
        · subst ht
          have := (hasKeyD_iff_lookupD acc t).mp hu
          rw [hl] at this
          simp at this
        · simp [ht, List.mem_cons]
    · rw [if_neg hu, lookupD_append_single]
      cases hl : lookupD acc t with
      | some v => simp
      | none =>
        by_cases ht : u = t
        · subst ht
          simp [List.mem_cons]
        · have ht2 : ¬ t = u := fun h => ht h.symm
          simp [ht, ht2, List.mem_cons]

theorem initInner_lookup (ts : List Int) (t : Int) :
    lookupD (initInner ts) t = (if t ∈ ts then some 0 else none) := by
  unfold initInner
  rw [initInner_lookup_aux]
  rfl

theorem initInner_all_zero :
    ∀ (ts : List Int) (acc : List (Int × Nat)),
      (∀ p ∈ acc, p.2 = 0) →
      ∀ p ∈ (ts.foldl
        (fun inn u => if hasKeyD inn u then inn else inn ++ [(u, 0)]) acc),
        p.2 = 0 := by
  intro ts
  induction ts with
  | nil => intro acc h; exact h
  | cons u ts ih =>
    intro acc h
    rw [List.foldl_cons]
    by_cases hu : hasKeyD acc u = true
    · rw [if_pos hu]; exact ih acc h
    · rw [if_neg hu]
      refine ih (acc ++ [(u, 0)]) ?_
      intro p hp
      rcases List.mem_append.mp hp with h2 | h2
      · exact h p h2
      · simp at h2
        rw [h2]

theorem initInner_sum (ts : List Int) :
    ((initInner ts).map Prod.snd).sum = 0 := by
  have hz := initInner_all_zero ts [] (by simp)
  unfold initInner
  refine List.sum_eq_zero ?_
  intro x hx
  obtain ⟨p, hp, hpx⟩ := List.mem_map.mp hx
  rw [← hpx]
  exact hz p hp

theorem lookupD_mem {α β : Type} [DecidableEq α] :
    ∀ (d : List (α × β)) (k : α) (v : β),
      lookupD d k = some v → (k, v) ∈ d := by
  intro d k v
  induction d with
  | nil => simp [lookupD]
  | cons p rest ih =>
    obtain ⟨k1, v1⟩ := p
    by_cases hk : k1 = k
    · subst hk
      simp [lookupD]
      intro h
      exact Or.inl h.symm
    · simp only [lookupD, if_neg hk, List.mem_cons]
      intro h
      exact Or.inr (ih h)

theorem mem_updAtKey {α β : Type} [DecidableEq α] :
    ∀ (d : List (α × β)) (k : α) (f : β → β) (p : α × β),
      p ∈ updAtKey d k f → p ∈ d ∨ ∃ q ∈ d, q.1 = k ∧ p = (k, f q.2) := by
  intro d k f p
  induction d with
  | nil => simp [updAtKey]
  | cons q rest ih =>
    obtain ⟨k1, v1⟩ := q
    by_cases hk : k1 = k
    · subst hk
      simp only [updAtKey, if_pos rfl]
      intro h
      rcases List.mem_cons.mp h with h | h
      · exact Or.inr ⟨(k1, v1), List.mem_cons_self _ _, rfl, h⟩
      · exact Or.inl (List.mem_cons_of_mem _ h)
    · simp only [updAtKey, if_neg hk]
      intro h
      rcases List.mem_cons.mp h with h | h
      · exact Or.inl (by rw [h]; exact List.mem_cons_self _ _)
      · rcases ih h with h2 | ⟨q2, hq2, hq2k, hq2p⟩
        · exact Or.inl (List.mem_cons_of_mem _ h2)
        · exact Or.inr ⟨q2, List.mem_cons_of_mem _ hq2, hq2k, hq2p⟩

theorem leastGE_mem_le (ts : List Int) (e t : Int)
    (h : leastGE ts e = some t) : t ∈ ts ∧ e ≤ t := by
  unfold leastGE at h
  refine ⟨List.mem_of_find?_eq_some h, ?_⟩
  have := List.find?_some h
  simpa using this

theorem leastGE_min (ts : List Int) (hs : List.Sorted (· ≤ ·) ts)
    (e t : Int) (h : leastGE ts e = some t) :
    ∀ u ∈ ts, e ≤ u → t ≤ u := by
  induction ts with
  | nil => simp [leastGE, List.find?] at h
  | cons t1 ts ih =>
    obtain ⟨hhd, htl⟩ := List.sorted_cons.mp hs
    by_cases he : e ≤ t1
    · have ht : t = t1 := by
        simp [leastGE, List.find?_cons_of_pos, he] at h
        exact h.symm
      subst ht
      intro u hu _
      rcases List.mem_cons.mp hu with h2 | h2
      · rw [h2]
      · exact hhd u h2
    · have h2 : leastGE ts e = some t := by
        simpa [leastGE, List.find?_cons_of_neg, he] using h
      intro u hu hue
      rcases List.mem_cons.mp hu with h3 | h3
      · rw [h3] at hue
        exact absurd hue he
      · exact ih htl h2 u h3 hue

theorem sorted_le_getLast :
    ∀ (ts : List Int), List.Sorted (· ≤ ·) ts → ∀ (hne : ts ≠ []),
      ∀ x ∈ ts, x ≤ ts.getLast hne := by
  intro ts
  induction ts with
  | nil => intro _ hne; exact absurd rfl hne
  | cons t1 ts ih =>
    intro hs hne x hx
    obtain ⟨hhd, htl⟩ := List.sorted_cons.mp hs
    cases ts with
    | nil =>
      simp at hx
      simp [hx]
    | cons t2 ts2 =>
      have hne2 : (t2 :: ts2) ≠ [] := by simp
      rw [List.getLast_cons hne2]
      rcases List.mem_cons.mp hx with h2 | h2
      · subst h2
        exact le_trans (hhd t2 (List.mem_cons_self _ _))
          (ih htl hne2 t2 (List.mem_cons_self _ _))
      · exact ih htl hne2 x h2

theorem leastGE_isSome_iff (ts : List Int) (hs : List.Sorted (· ≤ ·) ts)
    (hne : ts ≠ []) (e : Int) :
    (leastGE ts e).isSome = true ↔ e ≤ ts.getLast hne := by
  constructor
  · intro h
    obtain ⟨t, ht⟩ := Option.isSome_iff_exists.mp h
    obtain ⟨hmem, hle⟩ := leastGE_mem_le ts e t ht
    exact le_trans hle (sorted_le_getLast ts hs hne t hmem)
  · intro h
    unfold leastGE
    rw [List.find?_isSome]
    exact ⟨ts.getLast hne, List.getLast_mem hne, by simpa using h⟩

theorem leastGE_none (ts : List Int) (e : Int)
    (h : ∀ t ∈ ts, ¬ e ≤ t) : leastGE ts e = none := by
  unfold leastGE
  rw [List.find?_eq_none]
  intro x hx
  simpa using h x hx

theorem dist_step_lookup (ts : List Int)
    (d : List (Value × List (Int × Nat)))
    (hinv : ∀ p ∈ d, ∀ u : Int, (lookupD p.2 u).isSome = true ↔ u ∈ ts)
    (op : Value) :
    ∃ inner1,
      lookupD (if hasKeyD d op then d else d ++ [(op, initInner ts)]) op =
        some inner1 ∧
      (∀ u : Int, (lookupD inner1 u).isSome = true ↔ u ∈ ts) ∧
      (∀ t, (lookupD inner1 t).getD 0 = bucketCount d op t) ∧
      (inner1.map Prod.snd).sum = bucketSum d op := by
  by_cases hop : hasKeyD d op = true
  · obtain ⟨inner, hinner⟩ :=
      Option.isSome_iff_exists.mp ((hasKeyD_iff_lookupD d op).mp hop)
    refine ⟨inner, by rw [if_pos hop]; exact hinner, ?_, ?_, ?_⟩
    · exact hinv (op, inner) (lookupD_mem d op inner hinner)
    · intro t
      unfold bucketCount
      rw [hinner]
    · unfold bucketSum
      rw [hinner]
  · have hnone : lookupD d op = none := by
      cases hl : lookupD d op with
      | none => rfl
      | some v =>
        exact absurd ((hasKeyD_iff_lookupD d op).mpr (by rw [hl]; rfl)) hop
    refine ⟨initInner ts, ?_, ?_, ?_, ?_⟩
    · rw [if_neg hop, lookupD_append_single, hnone]
      simp
    · intro u
      rw [initInner_lookup]
      by_cases hu : u ∈ ts <;> simp [hu]
    · intro t
      unfold bucketCount
      rw [hnone, initInner_lookup]
      by_cases ht : t ∈ ts <;> simp [ht]
    · unfold bucketSum
      rw [hnone, initInner_sum]

theorem dist_step_other (ts : List Int)
    (d : List (Value × List (Int × Nat))) (op : Value)
    (f : List (Int × Nat) → List (Int × Nat)) (op2 : Value)
    (hne : op2 ≠ op) :
    lookupD (updAtKey (if hasKeyD d op then d else d ++ [(op, initInner ts)])
        op f) op2 = lookupD d op2 := by
  rw [updAtKey_lookup_other _ op f op2 hne]
  by_cases hop : hasKeyD d op = true
  · rw [if_pos hop]
  · rw [if_neg hop, lookupD_append_single]
    cases hl : lookupD d op2 with
    | some v => rfl
    | none =>
      have h2 : ¬ op = op2 := fun h => hne h.symm
      simp [h2]

theorem assignBucket_lookup_isSome (ts0 : List Int)
    (inner : List (Int × Nat))
    (hok : ∀ u : Int, (lookupD inner u).isSome = true ↔ u ∈ ts0)
    (ts : List Int) (e : Int) :
    ∀ u : Int, (lookupD (assignBucket inner ts e) u).isSome = true ↔
      u ∈ ts0 := by
  intro u
  rw [assignBucket_eq]
  cases hL : leastGE ts e with
  | none => exact hok u
  | some t => rw [bumpAtKey_isSome]; exact hok u

theorem bucketCount_eq_of_lookup (d : List (Value × List (Int × Nat)))
    (op : Value) (inner : List (Int × Nat)) (t : Int)
    (h : lookupD d op = some inner) :
    bucketCount d op t = (lookupD inner t).getD 0 := by
  unfold bucketCount
  rw [h]

theorem bucketSum_eq_of_lookup (d : List (Value × List (Int × Nat)))
    (op : Value) (inner : List (Int × Nat))
    (h : lookupD d op = some inner) :
    bucketSum d op = (inner.map Prod.snd).sum := by
  unfold bucketSum
  rw [h]

theorem dist_step_bc (ts : List Int) (d : List (Value × List (Int × Nat)))
    (hinv : ∀ p ∈ d, ∀ u : Int, (lookupD p.2 u).isSome = true ↔ u ∈ ts)
    (op : Value) (e : Int) (t : Int) :
    bucketCount (updAtKey (if hasKeyD d op then d
        else d ++ [(op, initInner ts)]) op
      (fun inner => assignBucket inner ts e)) op t =
      bucketCount d op t + (if leastGE ts e = some t then 1 else 0) := by
  obtain ⟨inner1, hlk1, hok1, hbc1, _⟩ := dist_step_lookup ts d hinv op
  have hlk2 : lookupD (updAtKey (if hasKeyD d op then d
      else d ++ [(op, initInner ts)]) op
      (fun inner => assignBucket inner ts e)) op =
      some (assignBucket inner1 ts e) := by
    rw [updAtKey_lookup_self, hlk1]
    rfl
  rw [bucketCount_eq_of_lookup _ op _ t hlk2, assignBucket_eq]
  cases hL : leastGE ts e with
  | none =>
    dsimp only
    rw [hbc1 t]
    simp
  | some t0 =>
    dsimp only
    by_cases ht : t = t0
    · subst ht
      rw [bumpAtKey_lookup_self]
      have hmem : t ∈ ts := (leastGE_mem_le ts e t hL).1
      obtain ⟨v, hv⟩ := Option.isSome_iff_exists.mp ((hok1 t).mpr hmem)
      have hbase := hbc1 t
      rw [hv] at hbase
      simp at hbase
      rw [hv, ← hbase]
      simp
    · rw [bumpAtKey_lookup_other inner1 t0 t ht, hbc1 t]
      have hne2 : ¬ (some t0 = some t) := by
        simp
        exact fun h => ht h.symm
      simp [hne2]

theorem dist_step_bs (ts : List Int) (d : List (Value × List (Int × Nat)))
    (hinv : ∀ p ∈ d, ∀ u : Int, (lookupD p.2 u).isSome = true ↔ u ∈ ts)
    (op : Value) (e : Int) :
    bucketSum (updAtKey (if hasKeyD d op then d
        else d ++ [(op, initInner ts)]) op
      (fun inner => assignBucket inner ts e)) op =
      bucketSum d op + (if (leastGE ts e).isSome then 1 else 0) := by
  obtain ⟨inner1, hlk1, hok1, _, hbs1⟩ := dist_step_lookup ts d hinv op
  have hlk2 : lookupD (updAtKey (if hasKeyD d op then d
      else d ++ [(op, initInner ts)]) op
      (fun inner => assignBucket inner ts e)) op =
      some (assignBucket inner1 ts e) := by
    rw [updAtKey_lookup_self, hlk1]
    rfl
  rw [bucketSum_eq_of_lookup _ op _ hlk2, assignBucket_eq]
  cases hL : leastGE ts e with
  | none =>
    dsimp only
    rw [hbs1]
    simp
  | some t0 =>
    dsimp only
    have hmem : t0 ∈ ts := (leastGE_mem_le ts e t0 hL).1
    have hkey : hasKeyD inner1 t0 = true :=
      (hasKeyD_iff_lookupD inner1 t0).mpr ((hok1 t0).mpr hmem)
    rw [bumpAtKey_sum, hkey, hbs1]
    simp

theorem dist_step_inv (ts : List Int) (d : List (Value × List (Int × Nat)))
    (hinv : ∀ p ∈ d, ∀ u : Int, (lookupD p.2 u).isSome = true ↔ u ∈ ts)
    (op : Value) (e : Int) :
    ∀ p ∈ updAtKey (if hasKeyD d op then d
        else d ++ [(op, initInner ts)]) op
      (fun inner => assignBucket inner ts e), ∀ u : Int,
      (lookupD p.2 u).isSome = true ↔ u ∈ ts := by
  have hinv1 : ∀ p ∈ (if hasKeyD d op then d
      else d ++ [(op, initInner ts)]), ∀ u : Int,
      (lookupD p.2 u).isSome = true ↔ u ∈ ts := by
    by_cases hop : hasKeyD d op = true
    · rw [if_pos hop]
      exact hinv
    · rw [if_neg hop]
      intro p hp u
      rcases List.mem_append.mp hp with h2 | h2
      · exact hinv p h2 u
      · simp at h2
        rw [h2]
        rw [initInner_lookup]
        by_cases hu : u ∈ ts <;> simp [hu]
  intro p hp u
  rcases mem_updAtKey _ op _ p hp with h2 | ⟨q, hq, _, hqp⟩
  · exact hinv1 p h2 u
  · rw [hqp]
    exact assignBucket_lookup_isSome ts q.2 (hinv1 q hq) ts e u

theorem bucketCount_congr (d1 d2 : List (Value × List (Int × Nat)))
    (op : Value) (h : lookupD d1 op = lookupD d2 op) (t : Int) :
    bucketCount d1 op t = bucketCount d2 op t := by
  unfold bucketCount
  rw [h]

theorem bucketSum_congr (d1 d2 : List (Value × List (Int × Nat)))
    (op : Value) (h : lookupD d1 op = lookupD d2 op) :
    bucketSum d1 op = bucketSum d2 op := by
  unfold bucketSum
  rw [h]

theorem distLoop_cons (ts : List Int) (ev : Rec) (rest : List Rec)
    (d : List (Value × List (Int × Nat))) (op : Value) (ex : Int)
    (hop : getOpV ev = Except.ok op) (hex : getExecI ev = Except.ok ex) :
    distLoop ts (ev :: rest) d =
      distLoop ts rest (updAtKey (if hasKeyD d op then d
        else d ++ [(op, initInner ts)]) op
        (fun inner => assignBucket inner ts ex)) := by
  conv_lhs => rw [distLoop.eq_def]
  dsimp only
  rw [hop, hex]

/-- Under sortedness, the scanner's first hit is exactly the least threshold
at or above the execution time. -/
theorem leastGE_iff_isLeast (ts : List Int)
    (hs : List.Sorted (fun a b : Int => a ≤ b) ts) (e t : Int) :
    leastGE ts e = some t ↔ isLeastGE ts e t := by
  constructor
  · intro h
    obtain ⟨hmem, hle⟩ := leastGE_mem_le ts e t h
    exact ⟨hmem, hle, leastGE_min ts hs e t h⟩
  · rintro ⟨hmem, hle, hmin⟩
    have hsome : (leastGE ts e).isSome = true := by
      unfold leastGE
      rw [List.find?_isSome]
      exact ⟨t, hmem, by simpa using hle⟩
    obtain ⟨t2, ht2⟩ := Option.isSome_iff_exists.mp hsome
    obtain ⟨hmem2, hle2⟩ := leastGE_mem_le ts e t2 ht2
    have h1 : t2 ≤ t := leastGE_min ts hs e t2 ht2 t hmem hle
    have h2 : t ≤ t2 := hmin t2 hmem2 hle2
    rw [ht2, le_antisymm h1 h2]

/-- Main loop invariant of the distribution reducer: running it from any
table whose inner dicts are keyed exactly by the thresholds adds, for every
operation type and bucket, the number of that type's events whose least
covering threshold is that bucket. -/
theorem distLoop_spec (ts : List Int) :
    ∀ (evs : List Rec) (d : List (Value × List (Int × Nat))),
      wfEvents evs →
      (∀ p ∈ d, ∀ u : Int, (lookupD p.2 u).isSome = true ↔ u ∈ ts) →
      ∃ d', distLoop ts evs d = Except.ok d' ∧
        (∀ op t, bucketCount d' op t = bucketCount d op t +
          evs.countP (fun ev => decide (opD ev = op) &&
            decide (leastGE ts (exD ev) = some t))) ∧
        (∀ op, bucketSum d' op = bucketSum d op +
          evs.countP (fun ev => decide (opD ev = op) &&
            (leastGE ts (exD ev)).isSome)) ∧
        (∀ p ∈ d', ∀ u : Int, (lookupD p.2 u).isSome = true ↔ u ∈ ts) := by
  intro evs
  induction evs with
  | nil =>
    intro d _ hinv
    refine ⟨d, rfl, ?_, ?_, hinv⟩
    · intro op t
      simp
    · intro op
      simp
  | cons ev rest ih =>
    intro d hw hinv
    have hev := hw ev (List.mem_cons_self _ _)
    have hwrest : wfEvents rest := fun e he => hw e (List.mem_cons_of_mem _ he)
    have hop := getOpV_of_hasHashableOp ev hev.1
    have hex := getExecI_of_hasIntExec ev hev.2
    rw [distLoop_cons ts ev rest d (opD ev) (exD ev) hop hex]
    have hstep_inv := dist_step_inv ts d hinv (opD ev) (exD ev)
    obtain ⟨d', hrun, hbc, hbs, hinv'⟩ :=
      ih (updAtKey (if hasKeyD d (opD ev) then d
        else d ++ [(opD ev, initInner ts)]) (opD ev)
        (fun inner => assignBucket inner ts (exD ev))) hwrest hstep_inv
    refine ⟨d', hrun, ?_, ?_, hinv'⟩
    · intro op t
      rw [hbc op t, List.countP_cons]
      by_cases hopeq : opD ev = op
      · subst hopeq
        rw [dist_step_bc ts d hinv (opD ev) (exD ev) t]
        by_cases hL : leastGE ts (exD ev) = some t
        · simp [hL]
          omega
        · simp [hL]
      · have hne : op ≠ opD ev := fun h => hopeq h.symm
        rw [bucketCount_congr _ d op
          (dist_step_other ts d (opD ev)
            (fun inner => assignBucket inner ts (exD ev)) op hne) t]
        simp [hopeq]
    · intro op
      rw [hbs op, List.countP_cons]
      by_cases hopeq : opD ev = op
      · subst hopeq
        rw [dist_step_bs ts d hinv (opD ev) (exD ev)]
        by_cases hL : (leastGE ts (exD ev)).isSome = true
        · simp [hL]
          omega
        · rw [Bool.not_eq_true] at hL
          simp [hL]
      · have hne : op ≠ opD ev := fun h => hopeq h.symm
        rw [bucketSum_congr _ d op
          (dist_step_other ts d (opD ev)
            (fun inner => assignBucket inner ts (exD ev)) op hne)]
        simp [hopeq]

/-- Claim C3: for well-formed events and an ascending threshold list, the
distribution reducer succeeds; each operation type's bucket for threshold `t`
counts exactly that type's events whose smallest covering threshold is `t`
(so an event whose execution time exceeds every threshold lands in no
bucket), and the sum of one type's buckets is the number of its events at or
below the largest threshold. -/
theorem c3_distribution (evs : List Rec) (ts : List Int)
    (hw : wfEvents evs) (hs : List.Sorted (fun a b : Int => a ≤ b) ts) :
    ∃ d, calculate_execution_time_distribution evs ts = Except.ok d ∧
      (∀ op t, bucketCount d op t =
        (eventsOf evs op).countP
          (fun ev => decide (isLeastGE ts (exD ev) t))) ∧
      (∀ hne : ts ≠ [], ∀ op, bucketSum d op =
        (eventsOf evs op).countP
          (fun ev => decide (exD ev ≤ ts.getLast hne))) := by
  obtain ⟨d, hrun, hbc, hbs, _⟩ := distLoop_spec ts evs [] hw
    (by intro p hp _; simp at hp)
  refine ⟨d, hrun, ?_, ?_⟩
  · intro op t
    rw [hbc op t]
    have h0 : bucketCount [] op t = 0 := rfl
    rw [h0, Nat.zero_add]
    unfold eventsOf
    rw [List.countP_filter]
    apply List.countP_congr
    intro ev _
    rw [Bool.and_comm]
    have hiff := leastGE_iff_isLeast ts hs (exD ev) t
    have hd : decide (leastGE ts (exD ev) = some t) =
        decide (isLeastGE ts (exD ev) t) := decide_eq_decide.mpr hiff
    rw [hd]
  · intro hne op
    rw [hbs op]
    have h0 : bucketSum [] op = 0 := rfl
    rw [h0, Nat.zero_add]
    unfold eventsOf
    rw [List.countP_filter]
    apply List.countP_congr
    intro ev _
    rw [Bool.and_comm]
    have hb : (leastGE ts (exD ev)).isSome =
        decide (exD ev ≤ ts.getLast hne) := by
      by_cases hc : exD ev ≤ ts.getLast hne
      · rw [(leastGE_isSome_iff ts hs hne (exD ev)).mpr hc]
        simp [hc]
      · have h1 : ¬ (leastGE ts (exD ev)).isSome = true := fun h =>
          hc ((leastGE_isSome_iff ts hs hne (exD ev)).mp h)
        rw [Bool.not_eq_true] at h1
        rw [h1]
        simp [hc]
    rw [hb]

/-- Witness for C3 at a concrete input: two SEARCH events landing in the 10
and 100 buckets and one BIND event beyond every threshold. -/
theorem c3_distribution_witness :
    ∃ d, calculate_execution_time_distribution
        [[(opKey, Value.str ("SEARCH")), (exeKey, Value.vint 7)],
         [(opKey, Value.str ("SEARCH")), (exeKey, Value.vint 60)],
         [(opKey, Value.str ("BIND")), (exeKey, Value.vint 500)]]
        [10, 100] = Except.ok d ∧
      (∀ op t, bucketCount d op t =
        (eventsOf
          [[(opKey, Value.str ("SEARCH")), (exeKey, Value.vint 7)],
           [(opKey, Value.str ("SEARCH")), (exeKey, Value.vint 60)],
           [(opKey, Value.str ("BIND")), (exeKey, Value.vint 500)]]
          op).countP
          (fun ev => decide (isLeastGE [10, 100] (exD ev) t))) ∧
      (∀ hne : ([10, 100] : List Int) ≠ [], ∀ op, bucketSum d op =
        (eventsOf
          [[(opKey, Value.str ("SEARCH")), (exeKey, Value.vint 7)],
           [(opKey, Value.str ("SEARCH")), (exeKey, Value.vint 60)],
           [(opKey, Value.str ("BIND")), (exeKey, Value.vint 500)]]
          op).countP
          (fun ev => decide (exD ev ≤ ([10, 100] : List Int).getLast hne))) :=
  c3_distribution
    [[(opKey, Value.str ("SEARCH")), (exeKey, Value.vint 7)],
     [(opKey, Value.str ("SEARCH")), (exeKey, Value.vint 60)],
     [(opKey, Value.str ("BIND")), (exeKey, Value.vint 500)]]
    [10, 100] (by decide) (by decide)

theorem nlog2_spec : ∀ (f n : Nat), 1 ≤ n → n ≤ f →
    2 ^ nlog2 f n ≤ n ∧ n < 2 ^ (nlog2 f n + 1) := by
  intro f
  induction f with
  | zero =>
    intro n h1 h2
    omega
  | succ f ih =>
    intro n h1 h2
    by_cases hn : n ≤ 1
    · have hn1 : n = 1 := by omega
      subst hn1
      simp [nlog2]
    · have h1b : 1 ≤ n / 2 := by omega
      have h2b : n / 2 ≤ f := by omega
      obtain ⟨hlo, hhi⟩ := ih (n / 2) h1b h2b
      have heq : nlog2 (f + 1) n = nlog2 f (n / 2) + 1 := by
        simp [nlog2, hn]
      rw [heq]
      rw [pow_succ, pow_succ] at *
      constructor
      · omega
      · omega

theorem log2N_spec (n : Nat) (h : 1 ≤ n) :
    2 ^ log2N n ≤ n ∧ n < 2 ^ (log2N n + 1) :=
  nlog2_spec n n h (le_refl n)

theorem pow2Until_lower : ∀ (f a b : Nat), 1 ≤ a → b ≤ a * 2 ^ f →
    b ≤ a * 2 ^ pow2Until f a b := by
  intro f
  induction f with
  | zero =>
    intro a b h1 h2
    simpa [pow2Until] using h2
  | succ f ih =>
    intro a b h1 h2
    by_cases hba : b ≤ a
    · simp [pow2Until, hba]
    · have heq : pow2Until (f + 1) a b = pow2Until f (2 * a) b + 1 := by
        simp [pow2Until, hba]
      rw [heq]
      have h2b : b ≤ 2 * a * 2 ^ f := by
        rw [pow_succ] at h2
        calc b ≤ a * (2 ^ f * 2) := h2
        _ = 2 * a * 2 ^ f := by ring
      have := ih (2 * a) b (by omega) h2b
      calc b ≤ 2 * a * 2 ^ pow2Until f (2 * a) b := this
      _ = a * 2 ^ (pow2Until f (2 * a) b + 1) := by rw [pow_succ]; ring

theorem roundHEDiv_eq (N B : Nat) :
    roundHEDiv N B = if 2 * (N % B) < B then N / B
      else if B < 2 * (N % B) then N / B + 1
      else if (N / B) % 2 = 0 then N / B else N / B + 1 := rfl

theorem roundHEDiv_one (n : Nat) : roundHEDiv n 1 = n := by
  rw [roundHEDiv_eq, Nat.mod_one, Nat.div_one]
  norm_num

theorem roundSel_div (Q R A r b S : Nat) (hb : 1 ≤ b) (hS : 1 ≤ S)
    (hbS : b < 2 * S) (hRb : R < b) (hA : A < S)
    (hAb : b * A + r = R * S) :
    (if 2 * r < b then A + Q * S
      else if b < 2 * r then A + Q * S + 1
      else if (A + Q * S) % 2 = 0 then A + Q * S
      else A + Q * S + 1) / S = Q := by
  have hdiv : ∀ m : Nat, Q * S ≤ m → m < Q * S + S → m / S = Q := by
    intro m h1 h2
    refine Nat.div_eq_of_lt_le h1 ?_
    calc m < Q * S + S := h2
    _ = (Q + 1) * S := by ring
  by_cases hR0 : R = 0
  · have hRS0 : R * S = 0 := by
      rw [hR0]
      ring
    have hr0 : r = 0 := by omega
    rw [if_pos (show 2 * r < b by omega)]
    exact hdiv _ (by omega) (by omega)
  · have hR1 : 1 ≤ R := by omega
    by_cases hA2 : A + 1 < S
    · split_ifs with h1 h2 h3
      · exact hdiv _ (by omega) (by omega)
      · exact hdiv _ (by omega) (by omega)
      · exact hdiv _ (by omega) (by omega)
      · exact hdiv _ (by omega) (by omega)
    · have hAS : A + 1 = S := by omega
      have h4 : (R + 1) * A ≤ b * A := Nat.mul_le_mul_right _ (by omega)
      have h5 : (R + 1) * A = R * A + A := by ring
      have hRS : R * S = R * A + R := by
        rw [← hAS]
        ring
      split_ifs with h1 h2 h3
      · exact hdiv _ (by omega) (by omega)
      · exfalso
        omega
      · exact hdiv _ (by omega) (by omega)
      · exfalso
        omega

theorem roundHEDiv_floor (n b S : Nat) (hb : 1 ≤ b) (hS : 1 ≤ S)
    (hbS : b < 2 * S) : roundHEDiv (n * S) b / S = n / b := by
  have hb0 : 0 < b := hb
  have hR : n % b < b := Nat.mod_lt n hb0
  have hN : n * S = n % b * S + (n / b * S) * b := by
    conv_lhs => rw [← Nat.div_add_mod n b]
    ring
  have hq : n * S / b = n % b * S / b + n / b * S := by
    rw [hN, Nat.add_mul_div_right _ _ hb0]
  have hr : n * S % b = n % b * S % b := by
    rw [hN, Nat.add_mul_mod_self_right]
  have hA : n % b * S / b < S := by
    rw [Nat.div_lt_iff_lt_mul hb0]
    calc n % b * S < b * S := mul_lt_mul_of_pos_right hR (by omega)
    _ = S * b := by ring
  have hAb := Nat.div_add_mod (n % b * S) b
  rw [roundHEDiv_eq, hq, hr]
  exact roundSel_div (n / b) (n % b) (n % b * S / b) (n % b * S % b) b S
    hb hS hbS hR hA hAb

theorem flRat_pos (a : Int) (b : Nat) (ha : 0 < a) :
    flRat a b =
      ((if 52 ≤ eRat a.natAbs b
        then (roundHEDiv a.natAbs (b * 2 ^ (eRat a.natAbs b - 52).toNat) : Int)
        else (roundHEDiv (a.natAbs * 2 ^ (52 - eRat a.natAbs b).toNat) b
          : Int)),
       eRat a.natAbs b - 52) := by
  unfold flRat
  rw [if_neg (show ¬ a = 0 by omega)]
  rw [if_neg (show ¬ a < 0 by omega)]
  dsimp only
  by_cases h52 : 52 ≤ eRat a.natAbs b
  · rw [if_pos h52, if_pos h52, one_mul]
  · rw [if_neg h52, if_neg h52, one_mul]

theorem eRat_eq (n b : Nat) :
    eRat n b = if b ≤ n then (log2N (n / b) : Int)
      else -(pow2Until b n b : Int) := rfl

theorem flo_small (a : Int) (b : Nat) (hap : 0 < a) (hb : 1 ≤ b) (k : Nat)
    (hbranch : ¬ 52 ≤ eRat a.natAbs b)
    (hk : ((52 : Int) - eRat a.natAbs b).toNat = k)
    (hb2 : b < 2 * 2 ^ k) :
    pyIntF (flRat a b) = ((a.natAbs / b : Nat) : Int) := by
  rw [flRat_pos a b hap, if_neg hbranch, hk]
  unfold pyIntF truncAbsF
  dsimp only
  rw [if_neg (show ¬ (↑(roundHEDiv (a.natAbs * 2 ^ k) b) : Int) < 0 by
    exact not_lt.mpr (Int.ofNat_nonneg _))]
  rw [if_neg (show ¬ (0 : Int) ≤ eRat a.natAbs b - 52 by omega)]
  have hknat : (-(eRat a.natAbs b - 52)).toNat = k := by omega
  rw [hknat, Int.natAbs_ofNat]
  rw [roundHEDiv_floor a.natAbs b (2 ^ k) hb (Nat.one_le_two_pow) hb2]

/-- Python `int(a / b)` agrees with exact integer division whenever the
numerator is a nonnegative integer below 2^53: the rounding error of the
quotient double is smaller than the distance to the nearest integer
boundary. -/
theorem pyIntDivFloat_floor (a : Int) (b : Nat) (ha : 0 ≤ a) (hb : 1 ≤ b)
    (hlt : a < 2 ^ 53) : pyIntDivFloat a b = a / (b : Int) := by
  have hrhs : a / (b : Int) = ((a.natAbs / b : Nat) : Int) := by
    rw [← Int.natAbs_of_nonneg ha]
    exact (Int.ofNat_div _ _).symm
  rw [hrhs]
  by_cases ha0 : a = 0
  · subst ha0
    simp [pyIntDivFloat, flRat, pyIntF, truncAbsF]
  · have hap : 0 < a := by omega
    have hn1 : 1 ≤ a.natAbs := by omega
    have hn53 : a.natAbs < 2 ^ 53 := by omega
    unfold pyIntDivFloat
    by_cases hbn : b ≤ a.natAbs
    · have he : eRat a.natAbs b = (log2N (a.natAbs / b) : Int) := by
        rw [eRat_eq, if_pos hbn]
      obtain ⟨hlo, hhi⟩ := log2N_spec (a.natAbs / b)
        ((Nat.one_le_div_iff (by omega)).mpr hbn)
      have hbL : b * 2 ^ log2N (a.natAbs / b) ≤ a.natAbs := by
        calc b * 2 ^ log2N (a.natAbs / b) ≤ b * (a.natAbs / b) :=
          Nat.mul_le_mul_left b hlo
        _ ≤ a.natAbs := Nat.mul_div_le a.natAbs b
      have hL53 : log2N (a.natAbs / b) ≤ 52 := by
        have h1 : 2 ^ log2N (a.natAbs / b) < 2 ^ 53 := by
          calc 2 ^ log2N (a.natAbs / b) ≤ a.natAbs / b := hlo
          _ ≤ a.natAbs := Nat.div_le_self _ b
          _ < 2 ^ 53 := hn53
        have := (Nat.pow_lt_pow_iff_right (by omega : 1 < 2)).mp h1
        omega
      by_cases hL52 : log2N (a.natAbs / b) = 52
      · have hb1 : b = 1 := by
          rw [hL52] at hbL
          omega
        subst hb1
        have he52 : eRat a.natAbs 1 = 52 := by
          rw [he, hL52]
          norm_num
        rw [flRat_pos a 1 hap, if_pos (by rw [he52])]
        rw [he52]
        norm_num [roundHEDiv_one]
        unfold pyIntF truncAbsF
        simp
      · have hL51 : log2N (a.natAbs / b) ≤ 51 := by omega
        have hbranch : ¬ 52 ≤ eRat a.natAbs b := by
          rw [he]
          omega
        have hk : ((52 : Int) - eRat a.natAbs b).toNat =
            52 - log2N (a.natAbs / b) := by
          rw [he]
          omega
        have hpow : (2 : ℕ) ^ 53 =
            2 ^ (53 - log2N (a.natAbs / b)) * 2 ^ log2N (a.natAbs / b) := by
          rw [← pow_add]
          congr 1
          omega
        have h2 : b * 2 ^ log2N (a.natAbs / b) <
            2 ^ (53 - log2N (a.natAbs / b)) * 2 ^ log2N (a.natAbs / b) := by
          rw [← hpow]
          omega
        have hb2 : b < 2 * 2 ^ (52 - log2N (a.natAbs / b)) := by
          have h3 := Nat.lt_of_mul_lt_mul_right h2
          have h4 : (2 : ℕ) ^ (53 - log2N (a.natAbs / b)) =
              2 * 2 ^ (52 - log2N (a.natAbs / b)) := by
            rw [show 53 - log2N (a.natAbs / b) =
              (52 - log2N (a.natAbs / b)) + 1 by omega, pow_succ]
            ring
          rw [← h4]
          exact h3
        exact flo_small a b hap hb _ hbranch hk hb2
    · have hnb : a.natAbs < b := by omega
      have he : eRat a.natAbs b = -(pow2Until b a.natAbs b : Nat) := by
        rw [eRat_eq, if_neg hbn]
      have hfuel : b ≤ a.natAbs * 2 ^ b := by
        calc b ≤ 2 ^ b := le_of_lt (Nat.lt_two_pow b)
        _ ≤ a.natAbs * 2 ^ b := Nat.le_mul_of_pos_left _ (by omega)
      have hKlow : b ≤ a.natAbs * 2 ^ pow2Until b a.natAbs b :=
        pow2Until_lower b a.natAbs b (by omega) hfuel
      have hbranch : ¬ 52 ≤ eRat a.natAbs b := by
        rw [he]
        omega
      have hk : ((52 : Int) - eRat a.natAbs b).toNat =
          52 + pow2Until b a.natAbs b := by
        rw [he]
        omega
      have hb2 : b < 2 * 2 ^ (52 + pow2Until b a.natAbs b) := by
        have h1 : a.natAbs * 2 ^ pow2Until b a.natAbs b <
            2 ^ 53 * 2 ^ pow2Until b a.natAbs b :=
          mul_lt_mul_of_pos_right hn53 (Nat.pos_pow_of_pos _ (by omega))
        have h2 : (2 : ℕ) ^ 53 * 2 ^ pow2Until b a.natAbs b =
            2 * 2 ^ (52 + pow2Until b a.natAbs b) := by
          rw [← pow_add, show 53 + pow2Until b a.natAbs b =
            (52 + pow2Until b a.natAbs b) + 1 by omega, pow_succ]
          ring
        calc b ≤ a.natAbs * 2 ^ pow2Until b a.natAbs b := hKlow
        _ < 2 ^ 53 * 2 ^ pow2Until b a.natAbs b := h1
        _ = 2 * 2 ^ (52 + pow2Until b a.natAbs b) := h2
      exact flo_small a b hap hb _ hbranch hk hb2

theorem addAtKey_lookup_self {α : Type} [DecidableEq α] :
    ∀ (d : List (α × Int)) (k : α) (x : Int),
      lookupD (addAtKey d k x) k = (lookupD d k).map (· + x) := by
  intro d k x
  induction d with
  | nil => simp [addAtKey, lookupD]
  | cons p rest ih =>
    obtain ⟨k1, v1⟩ := p
    by_cases hk : k1 = k
    · subst hk
      simp [addAtKey, lookupD]
    · simp [addAtKey, lookupD, hk, ih]

theorem addAtKey_lookup_other {α : Type} [DecidableEq α] :
    ∀ (d : List (α × Int)) (k : α) (x : Int) (k2 : α), k2 ≠ k →
      lookupD (addAtKey d k x) k2 = lookupD d k2 := by
  intro d k x k2 hne
  induction d with
  | nil => simp [addAtKey, lookupD]
  | cons p rest ih =>
    obtain ⟨k1, v1⟩ := p
    by_cases hk : k1 = k
    · subst hk
      have h2 : ¬ k1 = k2 := fun h => hne h.symm
      simp [addAtKey, lookupD, h2]
    · simp only [addAtKey, if_neg hk]
      by_cases h2 : k1 = k2
      · simp [lookupD, h2]
      · simp [lookupD, h2, ih]

theorem hasKeyD_bumpAtKey {α : Type} [DecidableEq α] :
    ∀ (d : List (α × Nat)) (k k2 : α),
      hasKeyD (bumpAtKey d k) k2 = hasKeyD d k2 := by
  intro d k k2
  induction d with
  | nil => simp [bumpAtKey]
  | cons p rest ih =>
    obtain ⟨k1, v1⟩ := p
    by_cases hk : k1 = k
    · subst hk
      simp [bumpAtKey, hasKeyD]
    · simp [bumpAtKey, hasKeyD, hk, ih]

theorem hasKeyD_addAtKey {α : Type} [DecidableEq α] :
    ∀ (d : List (α × Int)) (k : α) (x : Int) (k2 : α),
      hasKeyD (addAtKey d k x) k2 = hasKeyD d k2 := by
  intro d k x k2
  induction d with
  | nil => simp [addAtKey]
  | cons p rest ih =>
    obtain ⟨k1, v1⟩ := p
    by_cases hk : k1 = k
    · subst hk
      simp [addAtKey, hasKeyD]
    · simp [addAtKey, hasKeyD, hk, ih]

theorem hasKeyD_append_single {α β : Type} [DecidableEq α] :
    ∀ (d : List (α × β)) (k : α) (x : β) (k2 : α),
      hasKeyD (d ++ [(k, x)]) k2 = (hasKeyD d k2 || decide (k = k2)) := by
  intro d k x k2
  induction d with
  | nil => simp [hasKeyD]
  | cons p rest ih =>
    obtain ⟨k1, v1⟩ := p
    by_cases hk : k1 = k2
    · simp [hasKeyD, hk]
    · simp [hasKeyD, hk, ih]

theorem keys_bumpAtKey {α : Type} [DecidableEq α] :
    ∀ (d : List (α × Nat)) (k : α),
      (bumpAtKey d k).map Prod.fst = d.map Prod.fst := by
  intro d k
  induction d with
  | nil => simp [bumpAtKey]
  | cons p rest ih =>
    obtain ⟨k1, v1⟩ := p
    by_cases hk : k1 = k
    · simp [bumpAtKey, hk]
    · simp [bumpAtKey, hk, ih]

theorem keys_addAtKey {α : Type} [DecidableEq α] :
    ∀ (d : List (α × Int)) (k : α) (x : Int),
      (addAtKey d k x).map Prod.fst = d.map Prod.fst := by
  intro d k x
  induction d with
  | nil => simp [addAtKey]
  | cons p rest ih =>
    obtain ⟨k1, v1⟩ := p
    by_cases hk : k1 = k
    · simp [addAtKey, hk]
    · simp [addAtKey, hk, ih]

theorem hasKeyD_false_lookupD {α β : Type} [DecidableEq α]
    (d : List (α × β)) (k : α) (h : hasKeyD d k = false) :
    lookupD d k = none := by
  cases hl : lookupD d k with
  | none => rfl
  | some v =>
    have h2 : (lookupD d k).isSome = true := by rw [hl]; rfl
    rw [(hasKeyD_iff_lookupD d k).mpr h2] at h
    cases h

theorem lookupD_of_nodup_mem {α β : Type} [DecidableEq α] :
    ∀ (d : List (α × β)), (d.map Prod.fst).Nodup →
      ∀ (k : α) (v : β), (k, v) ∈ d → lookupD d k = some v := by
  intro d
  induction d with
  | nil => simp
  | cons p rest ih =>
    obtain ⟨k1, v1⟩ := p
    intro hnd k v hmem
    obtain ⟨h1, h2⟩ := List.nodup_cons.mp hnd
    rcases List.mem_cons.mp hmem with h3 | h3
    · injection h3 with a b
      subst a
      subst b
      simp [lookupD]
    · have hk1 : ¬ k1 = k := by
        intro hket
        subst hket
        exact h1 (List.mem_map.mpr ⟨(k1, v), h3, rfl⟩)
      simp only [lookupD, if_neg hk1]
      exact ih h2 k v h3

theorem bump_getD {α : Type} [DecidableEq α] (d : List (α × Nat)) (k : α)
    (h : hasKeyD d k = true) :
    (lookupD (bumpAtKey d k) k).getD 0 = (lookupD d k).getD 0 + 1 := by
  rw [bumpAtKey_lookup_self]
  obtain ⟨v, hv⟩ := Option.isSome_iff_exists.mp
    ((hasKeyD_iff_lookupD d k).mp h)
  rw [hv]
  rfl

theorem add_getD {α : Type} [DecidableEq α] (d : List (α × Int)) (k : α)
    (x : Int) (h : hasKeyD d k = true) :
    (lookupD (addAtKey d k x) k).getD 0 = (lookupD d k).getD 0 + x := by
  rw [addAtKey_lookup_self]
  obtain ⟨v, hv⟩ := Option.isSome_iff_exists.mp
    ((hasKeyD_iff_lookupD d k).mp h)
  rw [hv]
  rfl

theorem hasKeyD_mem_keys {α β : Type} [DecidableEq α] :
    ∀ (d : List (α × β)) (k : α),
      hasKeyD d k = true ↔ k ∈ d.map Prod.fst := by
  intro d k
  induction d with
  | nil => simp [hasKeyD]
  | cons p rest ih =>
    obtain ⟨k1, v1⟩ := p
    by_cases hk : k1 = k
    · subst hk
      simp [hasKeyD]
    · simp only [hasKeyD, if_neg hk, List.map_cons, List.mem_cons]
      rw [ih]
      constructor
      · intro h
        exact Or.inr h
      · intro h
        rcases h with h | h
        · exact absurd h.symm hk
        · exact h

theorem countOp_cons (ev : Rec) (rest : List Rec) (op : Value) :
    countOp (ev :: rest) op =
      countOp rest op + (if opD ev = op then 1 else 0) := by
  by_cases h : opD ev = op <;> simp [countOp, List.countP_cons, h]

theorem sumExec_eventsOf_cons (ev : Rec) (rest : List Rec) (op : Value) :
    sumExec (eventsOf (ev :: rest) op) =
      (if opD ev = op then exD ev else 0) + sumExec (eventsOf rest op) := by
  by_cases h : opD ev = op
  · simp [eventsOf, List.filter_cons, h, sumExec]
  · simp [eventsOf, List.filter_cons, h, sumExec]

theorem avgLoop_cons (ev : Rec) (rest : List Rec)
    (cnts : List (Value × Nat)) (sums : List (Value × Int)) (tot : Int)
    (n : Nat) (op : Value) (ex : Int)
    (hop : getOpV ev = Except.ok op) (hex : getExecI ev = Except.ok ex) :
    avgLoop (ev :: rest) cnts sums tot n =
      if hasKeyD cnts op then
        avgLoop rest (bumpAtKey cnts op) (addAtKey sums op ex) (tot + ex)
          (n + 1)
      else
        avgLoop rest (cnts ++ [(op, 1)]) (sums ++ [(op, ex)]) (tot + ex)
          (n + 1) := by
  conv_lhs => rw [avgLoop.eq_def]
  dsimp only
  rw [hop, hex]

/-- Main loop invariant of `calculate_average_execution_time`: the
accumulation loop succeeds on well-formed events, adds the total execution
time and the event count, and adds each operation type's count and sum to
its (first-occurrence-keyed) entries. -/
theorem avgLoop_spec :
    ∀ (evs : List Rec) (cnts : List (Value × Nat))
      (sums : List (Value × Int)) (tot : Int) (n : Nat),
      wfEvents evs →
      (∀ op, hasKeyD cnts op = hasKeyD sums op) →
      ∃ cnts2 sums2,
        avgLoop evs cnts sums tot n =
          Except.ok (cnts2, sums2, tot + sumExec evs, n + evs.length) ∧
        (∀ op, (lookupD cnts2 op).getD 0 =
          (lookupD cnts op).getD 0 + countOp evs op) ∧
        (∀ op, (lookupD sums2 op).getD 0 =
          (lookupD sums op).getD 0 + sumExec (eventsOf evs op)) ∧
        (∀ op, hasKeyD cnts2 op =
          (hasKeyD cnts op || evs.any (fun ev => decide (opD ev = op)))) ∧
        ((cnts.map Prod.fst).Nodup → (cnts2.map Prod.fst).Nodup) := by
  intro evs
  induction evs with
  | nil =>
    intro cnts sums tot n _ _
    refine ⟨cnts, sums, ?_, ?_, ?_, ?_, fun h => h⟩
    · simp [avgLoop, sumExec]
    · intro op
      simp [countOp]
    · intro op
      simp [eventsOf, sumExec]
    · intro op
      simp
  | cons ev rest ih =>
    intro cnts sums tot n hw hks
    have hev := hw ev (List.mem_cons_self _ _)
    have hwrest : wfEvents rest := fun e he => hw e (List.mem_cons_of_mem _ he)
    have hop := getOpV_of_hasHashableOp ev hev.1
    have hex := getExecI_of_hasIntExec ev hev.2
    rw [avgLoop_cons ev rest cnts sums tot n (opD ev) (exD ev) hop hex]
    have htot : tot + exD ev + sumExec rest = tot + sumExec (ev :: rest) := by
      simp [sumExec]
      ring
    have hlen : n + 1 + rest.length = n + (ev :: rest).length := by
      simp
      omega
    by_cases hkey : hasKeyD cnts (opD ev) = true
    · rw [if_pos hkey]
      have hkeyS : hasKeyD sums (opD ev) = true := by
        rw [← hks]
        exact hkey
      have hks1 : ∀ op, hasKeyD (bumpAtKey cnts (opD ev)) op =
          hasKeyD (addAtKey sums (opD ev) (exD ev)) op := by
        intro op
        rw [hasKeyD_bumpAtKey, hasKeyD_addAtKey]
        exact hks op
      obtain ⟨c2, s2, hrun, hc, hs, hk2, hnd⟩ :=
        ih (bumpAtKey cnts (opD ev)) (addAtKey sums (opD ev) (exD ev))
          (tot + exD ev) (n + 1) hwrest hks1
      rw [htot, hlen] at hrun
      refine ⟨c2, s2, hrun, ?_, ?_, ?_, ?_⟩
      · intro op
        rw [hc op, countOp_cons]
        by_cases hopeq : opD ev = op
        · subst hopeq
          rw [bump_getD cnts (opD ev) hkey]
          simp
          omega
        · rw [bumpAtKey_lookup_other cnts (opD ev) op
            (fun h => hopeq h.symm)]
          simp [hopeq]
      · intro op
        rw [hs op, sumExec_eventsOf_cons]
        by_cases hopeq : opD ev = op
        · subst hopeq
          rw [add_getD sums (opD ev) (exD ev) hkeyS]
          simp
          ring
        · rw [addAtKey_lookup_other sums (opD ev) (exD ev) op
            (fun h => hopeq h.symm)]
          simp [hopeq]
      · intro op
        rw [hk2 op, hasKeyD_bumpAtKey]
        by_cases hopeq : opD ev = op
        · subst hopeq
          simp [hkey]
        · simp [hopeq]
      · intro hnd0
        apply hnd
        rw [keys_bumpAtKey]
        exact hnd0
    · rw [if_neg hkey]
      have hkeyF : hasKeyD cnts (opD ev) = false :=
        Bool.not_eq_true _ ▸ (eq_false_of_ne_true hkey)
      have hkeySF : hasKeyD sums (opD ev) = false := by
        rw [← hks]
        exact hkeyF
      have hks1 : ∀ op, hasKeyD (cnts ++ [(opD ev, 1)]) op =
          hasKeyD (sums ++ [(opD ev, exD ev)]) op := by
        intro op
        rw [hasKeyD_append_single, hasKeyD_append_single, hks op]
      obtain ⟨c2, s2, hrun, hc, hs, hk2, hnd⟩ :=
        ih (cnts ++ [(opD ev, 1)]) (sums ++ [(opD ev, exD ev)])
          (tot + exD ev) (n + 1) hwrest hks1
      rw [htot, hlen] at hrun
      refine ⟨c2, s2, hrun, ?_, ?_, ?_, ?_⟩
      · intro op
        rw [hc op, countOp_cons, lookupD_append_single]
        by_cases hopeq : opD ev = op
        · subst hopeq
          rw [hasKeyD_false_lookupD cnts _ hkeyF]
          simp
          omega
        · rw [if_neg hopeq]
          cases hl : lookupD cnts op with
          | some v => simp [hopeq]
          | none => simp [hopeq]
      · intro op
        rw [hs op, sumExec_eventsOf_cons, lookupD_append_single]
        by_cases hopeq : opD ev = op
        · subst hopeq
          rw [hasKeyD_false_lookupD sums _ hkeySF]
          simp
        · rw [if_neg hopeq]
          cases hl : lookupD sums op with
          | some v => simp [hopeq]
          | none => simp [hopeq]
      · intro op
        rw [hk2 op, hasKeyD_append_single]
        simp [Bool.or_assoc]
      · intro hnd0
        apply hnd
        rw [List.map_append]
        rw [List.nodup_append]
        refine ⟨hnd0, List.nodup_singleton _, ?_⟩
        simp only [List.map_cons, List.map_nil]
        intro x hx hx2
        rw [List.mem_singleton] at hx2
        subst hx2
        have h2 : hasKeyD cnts (opD ev) = true :=
          (hasKeyD_mem_keys cnts (opD ev)).mpr hx
        rw [h2] at hkeyF
        cases hkeyF

theorem sumExec_nonneg (evs : List Rec) (h : ∀ ev ∈ evs, 0 ≤ exD ev) :
    0 ≤ sumExec evs := by
  unfold sumExec
  apply List.sum_nonneg
  intro x hx
  obtain ⟨ev, hev, hx2⟩ := List.mem_map.mp hx
  rw [← hx2]
  exact h ev hev

theorem sumExec_eventsOf_nonneg (evs : List Rec) (op : Value)
    (h : ∀ ev ∈ evs, 0 ≤ exD ev) : 0 ≤ sumExec (eventsOf evs op) := by
  apply sumExec_nonneg
  intro ev hev
  exact h ev (List.mem_of_mem_filter hev)

theorem sumExec_eventsOf_le (evs : List Rec) (op : Value)
    (h : ∀ ev ∈ evs, 0 ≤ exD ev) :
    sumExec (eventsOf evs op) ≤ sumExec evs := by
  induction evs with
  | nil => simp [eventsOf, sumExec]
  | cons ev rest ih =>
    have hrest : ∀ e ∈ rest, 0 ≤ exD e :=
      fun e he => h e (List.mem_cons_of_mem _ he)
    have hev : 0 ≤ exD ev := h ev (List.mem_cons_self _ _)
    rw [sumExec_eventsOf_cons]
    have h2 : sumExec (ev :: rest) = exD ev + sumExec rest := by
      simp [sumExec]
    rw [h2]
    by_cases hopeq : opD ev = op
    · rw [if_pos hopeq]
      have := ih hrest
      omega
    · rw [if_neg hopeq]
      have := ih hrest
      omega

theorem countOp_pos (evs : List Rec) (op : Value)
    (h : op ∈ evs.map opD) : 0 < countOp evs op := by
  obtain ⟨ev, hev, heq⟩ := List.mem_map.mp h
  unfold countOp
  rw [List.countP_pos]
  exact ⟨ev, hev, by simp [heq]⟩

/-- Claim C5, amended: on a nonempty, well-formed event sequence whose
execution times are nonnegative and whose total stays below 2^53, the
reducer returns truncated integer means — overall and per operation type —
with one entry per operation type occurring in the input; the empty-input
guard of the claim does not exist (see the counterexample theorem). -/
theorem c5_average (evs : List Rec) (hw : wfEvents evs) (hne : evs ≠ [])
    (hnn : ∀ ev ∈ evs, 0 ≤ exD ev) (hbound : sumExec evs < 2 ^ 53) :
    ∃ avgs cnts overall,
      calculate_average_execution_time evs =
        Except.ok (avgs, cnts, overall) ∧
      overall = sumExec evs / (evs.length : Int) ∧
      (∀ op c, (op, c) ∈ cnts → c = countOp evs op) ∧
      (∀ op v, (op, v) ∈ avgs →
        v = sumExec (eventsOf evs op) / ((countOp evs op : Nat) : Int)) ∧
      (∀ op, hasKeyD cnts op = true ↔ op ∈ evs.map opD) := by
  obtain ⟨c2, s2, hrun, hc, hs, hk2, hnd⟩ :=
    avgLoop_spec evs [] [] 0 0 hw (fun op => rfl)
  have hnd2 : (c2.map Prod.fst).Nodup := hnd (by simp)
  have hc2 : ∀ op, (lookupD c2 op).getD 0 = countOp evs op := by
    intro op
    rw [hc op]
    simp [lookupD]
  have hs2 : ∀ op, (lookupD s2 op).getD 0 = sumExec (eventsOf evs op) := by
    intro op
    rw [hs op]
    simp [lookupD]
  have hk3 : ∀ op, hasKeyD c2 op = true ↔ op ∈ evs.map opD := by
    intro op
    rw [hk2 op]
    simp [hasKeyD, List.any_eq_true, List.mem_map]
  have hlen1 : 1 ≤ evs.length := by
    cases evs with
    | nil => exact absurd rfl hne
    | cons a l => simp
  rw [show (0 : Int) + sumExec evs = sumExec evs by ring] at hrun
  rw [show 0 + evs.length = evs.length by omega] at hrun
  unfold calculate_average_execution_time
  rw [hrun]
  dsimp only
  rw [if_neg (show ¬ evs.length = 0 by omega)]
  refine ⟨_, c2, _, rfl, ?_, ?_, ?_, hk3⟩
  · exact pyIntDivFloat_floor (sumExec evs) evs.length
      (sumExec_nonneg evs hnn) hlen1 hbound
  · intro op c hmem
    have hl := lookupD_of_nodup_mem c2 hnd2 op c hmem
    have h2 := hc2 op
    rw [hl] at h2
    simpa using h2
  · intro op v hmem
    obtain ⟨p, hp, heq⟩ := List.mem_map.mp hmem
    have hp1 : p.1 = op := congrArg Prod.fst heq
    have hv : v = pyIntDivFloat ((lookupD s2 p.1).getD 0) p.2 :=
      (congrArg Prod.snd heq).symm
    rw [hp1] at hv
    have hpc : p.2 = countOp evs op := by
      have hl := lookupD_of_nodup_mem c2 hnd2 p.1 p.2 (by
        simpa using hp)
      rw [hp1] at hl
      have h2 := hc2 op
      rw [hl] at h2
      simpa using h2
    have hopmem : op ∈ evs.map opD := by
      rw [← hk3 op]
      rw [hasKeyD_mem_keys]
      rw [← hp1]
      exact List.mem_map.mpr ⟨p, hp, rfl⟩
    rw [hv, hpc, hs2 op]
    exact pyIntDivFloat_floor (sumExec (eventsOf evs op)) (countOp evs op)
      (sumExec_eventsOf_nonneg evs op hnn) (countOp_pos evs op hopmem)
      (lt_of_le_of_lt (sumExec_eventsOf_le evs op hnn) hbound)

/-- Witness for C5 at a concrete input: two A events and one B event. -/
theorem c5_average_witness :
    ∃ avgs cnts overall,
      calculate_average_execution_time
        [[(opKey, Value.str ("A")), (exeKey, Value.vint 1)],
         [(opKey, Value.str ("A")), (exeKey, Value.vint 2)],
         [(opKey, Value.str ("B")), (exeKey, Value.vint 5)]] =
        Except.ok (avgs, cnts, overall) ∧
      overall = sumExec
          [[(opKey, Value.str ("A")), (exeKey, Value.vint 1)],
           [(opKey, Value.str ("A")), (exeKey, Value.vint 2)],
           [(opKey, Value.str ("B")), (exeKey, Value.vint 5)]] /
        ((([[(opKey, Value.str ("A")), (exeKey, Value.vint 1)],
            [(opKey, Value.str ("A")), (exeKey, Value.vint 2)],
            [(opKey, Value.str ("B")), (exeKey, Value.vint 5)]] :
          List Rec).length : Nat) : Int) ∧
      (∀ op c, (op, c) ∈ cnts → c = countOp
        [[(opKey, Value.str ("A")), (exeKey, Value.vint 1)],
         [(opKey, Value.str ("A")), (exeKey, Value.vint 2)],
         [(opKey, Value.str ("B")), (exeKey, Value.vint 5)]] op) ∧
      (∀ op v, (op, v) ∈ avgs →
        v = sumExec (eventsOf
            [[(opKey, Value.str ("A")), (exeKey, Value.vint 1)],
             [(opKey, Value.str ("A")), (exeKey, Value.vint 2)],
             [(opKey, Value.str ("B")), (exeKey, Value.vint 5)]] op) /
          ((countOp
            [[(opKey, Value.str ("A")), (exeKey, Value.vint 1)],
             [(opKey, Value.str ("A")), (exeKey, Value.vint 2)],
             [(opKey, Value.str ("B")), (exeKey, Value.vint 5)]] op : Nat) :
            Int)) ∧
      (∀ op, hasKeyD cnts op = true ↔ op ∈
        ([[(opKey, Value.str ("A")), (exeKey, Value.vint 1)],
          [(opKey, Value.str ("A")), (exeKey, Value.vint 2)],
          [(opKey, Value.str ("B")), (exeKey, Value.vint 5)]] :
          List Rec).map opD) :=
  c5_average
    [[(opKey, Value.str ("A")), (exeKey, Value.vint 1)],
     [(opKey, Value.str ("A")), (exeKey, Value.vint 2)],
     [(opKey, Value.str ("B")), (exeKey, Value.vint 5)]]
    (by decide) (by decide) (by decide) (by decide)
